import Mathlib

/-!
# MapMemoryResource and pmr_slist

A shallow embedding of `src/src/MapMemoryResource.cpp` (a bump arena with a
size-keyed registry of released blocks) and of `src/include/pmr_slist.h`
(a singly linked list that takes its nodes from a memory resource).

Conventions of the embedding.

* `std::size_t` and `std::uintptr_t` are 64 bit wide; every arithmetic result
  of the source is reduced modulo `SIZE_MOD = 2 ^ 64`.
* Addresses (`void*`, `std::byte*`, `Node*`) are natural numbers.
* `std::map<std::size_t, std::vector<void*>>` is an association list whose
  keys are strictly increasing (`KeysSorted`); a vector is a list whose last
  element is `back()`.
* A call that may throw returns its outcome together with the state the
  object is left in, so that what a throwing call did to the object can be
  stated.
* The mutex `lock_` is not part of the state: the embedding is sequential.
* A list is the chain of its nodes, each with its address. The one member that
  can leave the chains is `push_front`, when `allocate` hands it `nullptr` or
  the address of a node of the list; its outcome (`PushOutcome`) says so.
-/

/-- Number of values of `std::size_t` and of `std::uintptr_t`. -/
def SIZE_MOD : Nat := 2 ^ 64

/-- What a call can raise: `std::bad_alloc`, or the undefined `addr % 0` of
`align_up` when the alignment is zero. -/
inductive Exn where
  | bad_alloc
  | div_by_zero
  deriving DecidableEq, Repr

instance instDecidableEqExcept {ε α : Type} [DecidableEq ε] [DecidableEq α] :
    DecidableEq (Except ε α)
  | .ok a, .ok b => if h : a = b then isTrue (by rw [h]) else isFalse (by intro e; cases e; exact h rfl)
  | .error a, .error b =>
    if h : a = b then isTrue (by rw [h]) else isFalse (by intro e; cases e; exact h rfl)
  | .ok _, .error _ => isFalse (by intro e; cases e)
  | .error _, .ok _ => isFalse (by intro e; cases e)

/-- The type of `free_blocks_`: size class and the addresses released with it. -/
abbrev FreeMap := List (Nat × List Nat)

/-- The ordering invariant of `std::map`: keys strictly increasing, hence unique. -/
def KeysSorted (m : FreeMap) : Prop := m.Pairwise (fun a b => a.1 < b.1)

instance (m : FreeMap) : Decidable (KeysSorted m) := by
  unfold KeysSorted; infer_instance

/-- The member `std::map::find`: the vector stored under `key`, if the key is registered. -/
def FreeMap.find : FreeMap → Nat → Option (List Nat)
  | [], _ => none
  | (k, v) :: rest, key => if k = key then some v else FreeMap.find rest key

/-- The member `std::map::lower_bound`: the position of the first entry whose key is
not less than `key`; the length of the map stands for `end()`. -/
def FreeMap.lower_bound : FreeMap → Nat → Nat
  | [], _ => 0
  | (k, _) :: rest, key => if k < key then FreeMap.lower_bound rest key + 1 else 0

/-- The statement `free_blocks_[bytes].push_back(ptr)`: `operator[]` finds the entry
of `bytes`, inserting an empty vector at its ordered position when the key is
absent, and the address is appended to that vector. -/
def FreeMap.push_back_at : FreeMap → Nat → Nat → FreeMap
  | [], bytes, ptr => [(bytes, [ptr])]
  | (k, v) :: rest, bytes, ptr =>
    if k < bytes then (k, v) :: FreeMap.push_back_at rest bytes ptr
    else if k = bytes then (k, v ++ [ptr]) :: rest
    else (bytes, [ptr]) :: (k, v) :: rest

/-- The data members of `MapMemoryResource` (without the mutex). -/
structure MapMemoryResource where
  buffer_ : Nat
  size_ : Nat
  offset_ : Nat
  free_blocks_ : FreeMap
  deriving DecidableEq, Repr

/-- The constructor: `buffer` is the address `::operator new(total_size)` returned. -/
def MapMemoryResource.ctor (buffer total_size : Nat) : MapMemoryResource :=
  { buffer_ := buffer, size_ := total_size, offset_ := 0, free_blocks_ := [] }

/-- The static member `align_up`. -/
def MapMemoryResource.align_up (addr alignment : Nat) : Except Exn Nat :=
  if alignment = 0 then .error .div_by_zero
  else
    let mod := addr % alignment
    .ok (if mod = 0 then addr else (addr + (alignment - mod)) % SIZE_MOD)

/-- The member `allocate_from_buffer`; the subtraction `aligned - base` is the
unsigned one. -/
def MapMemoryResource.allocate_from_buffer (s : MapMemoryResource) (bytes alignment : Nat) :
    Except Exn Nat × MapMemoryResource :=
  let base := s.buffer_
  match MapMemoryResource.align_up ((base + s.offset_) % SIZE_MOD) alignment with
  | .error e => (.error e, s)
  | .ok aligned =>
    let new_offset := ((aligned + SIZE_MOD - base) % SIZE_MOD + bytes) % SIZE_MOD
    if new_offset > s.size_ then (.error .bad_alloc, s)
    else (.ok aligned, { s with offset_ := new_offset })

/-- The member `do_allocate`. -/
def MapMemoryResource.do_allocate (s : MapMemoryResource) (bytes alignment : Nat) :
    Except Exn Nat × MapMemoryResource :=
  let it := s.free_blocks_.lower_bound bytes
  match s.free_blocks_[it]? with
  | some (k, v) =>
    match v.getLast? with
    | some ptr => (.ok ptr, { s with free_blocks_ := s.free_blocks_.set it (k, v.dropLast) })
    | none => s.allocate_from_buffer bytes alignment
  | none => s.allocate_from_buffer bytes alignment

/-- The member `do_deallocate`; its third parameter is unnamed in the source. -/
def MapMemoryResource.do_deallocate (s : MapMemoryResource) (ptr bytes _alignment : Nat) :
    MapMemoryResource :=
  { s with free_blocks_ := s.free_blocks_.push_back_at bytes ptr }

/-- The member `do_is_equal`: the comparison `this == &other` of two object
addresses. -/
def MapMemoryResource.do_is_equal (this other : Nat) : Bool :=
  this == other

/-- The memory resources a program has constructed, by address. -/
abbrev Store := Nat → MapMemoryResource

/-- The struct `pmr_slist<T>::Node`, with the address it was constructed at. Its
member `next` is not a field: a node is kept together with the chain of its
successors, as the tail of the list it is the head of. -/
structure Node (T : Type) where
  addr : Nat
  value : T
  deriving DecidableEq, Repr

/-- The data members of `pmr_slist<T>`: `alloc_` is the address of the memory
resource the allocator wraps, `head_` the singly owned chain of nodes reached
from the head pointer through `next`, the empty chain being `nullptr`. -/
structure pmr_slist (T : Type) where
  alloc_ : Nat
  head_ : List (Node T)
  deriving DecidableEq, Repr

/-- The constructor `pmr_slist(std::pmr::memory_resource* mr)`. -/
def pmr_slist.ctor {T : Type} (mr : Nat) : pmr_slist T :=
  { alloc_ := mr, head_ := [] }

/-- How a call of `push_front` ends.

* `ok ()`: the call returned and the nodes form a chain again: the node was
  constructed in storage that is neither `nullptr` nor the storage of a node
  of the list.
* `error e`: the call was left by the exception `e` of `allocate`.
* `null_storage`: `allocate` returned `nullptr`, at which `new (n) Node(...)` is
  undefined.
* `cycle`: the call returned, but `allocate` had returned the address of a node
  that is still in the list. `new (n) Node(...)` overwrites that node,
  `n->next = head_` links it to the old head and `head_ = n` makes it the head, so
  that the nodes before it in the old chain now lead back to it: following `next`
  from the head never reaches `nullptr`. -/
inductive PushOutcome where
  | ok (u : Unit)
  | error (e : Exn)
  | null_storage
  | cycle
  deriving DecidableEq, Repr

/-- The member `push_front`. `alloc_.allocate(1)` asks the resource for
`sizeof(Node)` bytes aligned to `alignof(Node)`, the parameters `node_size` and
`node_align`; the node is constructed at the address `n` returned, linked before
the old head and made the head. An exception of the resource leaves the function
before any member is written. The source does not look at `n`; what its three
statements do depends on it:

* `n` is `nullptr`: the construction is undefined, and the list is given as it
  was before the call;
* `n` is the address of a node of the list: the outcome is `cycle`, and `head_`
  lists the nodes now reached from the head before the walk repeats, the
  overwritten node first and then the nodes that preceded it in the old chain,
  the last of which links back to the first;
* otherwise the new node is put before the old chain.

A list is passed as a value, so the nodes of other lists are not in the state of
the call. -/
def pmr_slist.push_front {T : Type} (node_size node_align : Nat) (l : pmr_slist T)
    (σ : Store) (value : T) : PushOutcome × pmr_slist T × Store :=
  match (σ l.alloc_).do_allocate node_size node_align with
  | (.ok n, mr) =>
    if n = 0 then (.null_storage, l, Function.update σ l.alloc_ mr)
    else if n ∈ l.head_.map Node.addr then
      (.cycle,
        { l with head_ :=
            { addr := n, value := value } :: l.head_.takeWhile (fun x => x.addr != n) },
        Function.update σ l.alloc_ mr)
    else
      (.ok (), { l with head_ := { addr := n, value := value } :: l.head_ },
        Function.update σ l.alloc_ mr)
  | (.error e, mr) => (.error e, l, Function.update σ l.alloc_ mr)

/-- The member `pop_front`. -/
def pmr_slist.pop_front {T : Type} (node_size node_align : Nat) (l : pmr_slist T)
    (σ : Store) : pmr_slist T × Store :=
  match l.head_ with
  | [] => (l, σ)
  | old :: next =>
    ({ l with head_ := next },
      Function.update σ l.alloc_ ((σ l.alloc_).do_deallocate old.addr node_size node_align))

/-- The member `empty`. -/
def pmr_slist.empty {T : Type} (l : pmr_slist T) : Bool :=
  l.head_.isEmpty

/-- The class `pmr_slist<T>::iterator`: `ptr_` is the chain that starts at the
node pointed to. -/
structure pmr_slist.iterator (T : Type) where
  ptr_ : List (Node T)

/-- The value of the pointer `ptr_`: the address of the node, `none` for `nullptr`. -/
def pmr_slist.iterator.raw {T : Type} (it : pmr_slist.iterator T) : Option Nat :=
  it.ptr_.head?.map Node.addr

/-- The member `operator*`, undefined on `nullptr`. -/
def pmr_slist.iterator.deref {T : Type} (it : pmr_slist.iterator T) : Option T :=
  it.ptr_.head?.map Node.value

/-- The member `operator==`: the two pointers are compared. -/
def pmr_slist.iterator.eq {T : Type} (a b : pmr_slist.iterator T) : Bool :=
  a.raw == b.raw

/-- The member `operator!=`. -/
def pmr_slist.iterator.ne {T : Type} (a b : pmr_slist.iterator T) : Bool :=
  a.raw != b.raw

/-- The member `begin`. -/
def pmr_slist.begin {T : Type} (l : pmr_slist T) : pmr_slist.iterator T :=
  { ptr_ := l.head_ }

/-- The member `end` (a keyword of Lean, hence the underscore). -/
def pmr_slist.end_ {T : Type} (_l : pmr_slist T) : pmr_slist.iterator T :=
  { ptr_ := [] }

/-- The loop `for (it = first; it != last; ++it)` collecting `*it`, as the
range-based `for` of the tests and of `main` runs it. -/
def pmr_slist.collect {T : Type} (first last : pmr_slist.iterator T) : List T :=
  if first.ne last then
    match h : first.ptr_ with
    | [] => []
    | n :: rest =>
      have : rest.length < first.ptr_.length := by simp [h]
      n.value :: pmr_slist.collect { ptr_ := rest } last
  else []
termination_by first.ptr_.length

/-- The values a range-based `for` over the list visits, in order. -/
def pmr_slist.values {T : Type} (l : pmr_slist T) : List T :=
  pmr_slist.collect l.begin l.end_

/-- A run of `push_front` calls, one per element of `xs` in order, stopped by the
first call that does not end with `ok ()`. -/
def pmr_slist.push_front_each {T : Type} (node_size node_align : Nat) :
    pmr_slist T → Store → List T → PushOutcome × pmr_slist T × Store
  | l, σ, [] => (.ok (), l, σ)
  | l, σ, x :: xs =>
    match pmr_slist.push_front node_size node_align l σ x with
    | (.ok _, l1, σ1) => pmr_slist.push_front_each node_size node_align l1 σ1 xs
    | (r, l1, σ1) => (r, l1, σ1)

/-- The condition `it != free_blocks_.end() && !it->second.empty()` of
`do_allocate`: whether the request `bytes` is served from the registry. -/
def MapMemoryResource.recycles (s : MapMemoryResource) (bytes : Nat) : Bool :=
  match s.free_blocks_[s.free_blocks_.lower_bound bytes]? with
  | some (_, v) => !v.isEmpty
  | none => false

/-- A call of the public interface of a memory resource. -/
inductive Call where
  | allocate (bytes alignment : Nat)
  | deallocate (ptr bytes alignment : Nat)
  deriving DecidableEq, Repr

/-- The state a resource is in after a sequence of calls, an exception of
`allocate` being caught by the caller. -/
def MapMemoryResource.run (s : MapMemoryResource) : List Call → MapMemoryResource
  | [] => s
  | .allocate bytes alignment :: calls =>
    MapMemoryResource.run (s.do_allocate bytes alignment).2 calls
  | .deallocate ptr bytes alignment :: calls =>
    MapMemoryResource.run (s.do_deallocate ptr bytes alignment) calls

/-- The member `clear`: the loop `while (head_) pop_front();`. -/
def pmr_slist.clear {T : Type} (node_size node_align : Nat) (l : pmr_slist T) (σ : Store) :
    pmr_slist T × Store :=
  match h : l.head_ with
  | [] => (l, σ)
  | _ :: _ =>
    have : (pmr_slist.pop_front node_size node_align l σ).1.head_.length < l.head_.length := by
      simp [pmr_slist.pop_front, h]
    pmr_slist.clear node_size node_align (pmr_slist.pop_front node_size node_align l σ).1
      (pmr_slist.pop_front node_size node_align l σ).2
termination_by l.head_.length

/-- The destructor `~pmr_slist()`, which calls `clear`. -/
def pmr_slist.dtor {T : Type} (node_size node_align : Nat) (l : pmr_slist T) (σ : Store) :
    pmr_slist T × Store :=
  pmr_slist.clear node_size node_align l σ

/-- The move constructor `pmr_slist(pmr_slist&& other)`: the new list, which takes
the allocator and the head of `other`, and `other` with its head set to
`nullptr`. No memory resource is called. -/
def pmr_slist.move_ctor {T : Type} (other : pmr_slist T) : pmr_slist T × pmr_slist T :=
  ({ alloc_ := other.alloc_, head_ := other.head_ }, { other with head_ := [] })

/-- The move assignment `operator=(pmr_slist&& other)`. The two list objects are
given with their addresses, which the test `this != &other` compares; when the
addresses are equal the two arguments are one object. The result is the list
assigned to, `other`, and the resources. The member `alloc_` is not assigned. -/
def pmr_slist.move_assign {T : Type} (node_size node_align : Nat) (this_addr other_addr : Nat)
    (this other : pmr_slist T) (σ : Store) : pmr_slist T × pmr_slist T × Store :=
  if this_addr ≠ other_addr then
    let cleared := pmr_slist.clear node_size node_align this σ
    ({ cleared.1 with head_ := other.head_ }, { other with head_ := [] }, cleared.2)
  else (this, other, σ)

/-- One iteration of the loop of `clear`, on the list and the resources. -/
def pmr_slist.pop_front_step {T : Type} (node_size node_align : Nat)
    (x : pmr_slist T × Store) : pmr_slist T × Store :=
  pmr_slist.pop_front node_size node_align x.1 x.2

/-- The blocks a caller holds: address and size of each, as `allocate` returned
the one and was given the other. -/
abbrev Blocks := List (Nat × Nat)

/-- The blocks that are left when one block with the given address and size is
given back. -/
def Blocks.remove : Blocks → Nat × Nat → Blocks
  | [], _ => []
  | x :: rest, blk => if x = blk then rest else x :: Blocks.remove rest blk

/-- The blocks the registry holds: every registered address with the key of its
size class as size. -/
def FreeMap.blocks : FreeMap → Blocks
  | [] => []
  | (k, v) :: rest => v.map (fun q => (q, k)) ++ FreeMap.blocks rest

/-- Two blocks `[p, p + bytes)` that do not overlap. -/
def Blocks.disjoint (x y : Nat × Nat) : Prop :=
  x.1 + x.2 ≤ y.1 ∨ y.1 + y.2 ≤ x.1

instance (x y : Nat × Nat) : Decidable (Blocks.disjoint x y) := by
  unfold Blocks.disjoint; infer_instance

/-- The sums of `allocate_from_buffer` for a request, before any reduction modulo
`SIZE_MOD`, stay in the range of `size_t`: the aligned address and the new
offset. -/
def MapMemoryResource.no_overflow (s : MapMemoryResource) (bytes alignment : Nat) : Bool :=
  let addr := s.buffer_ + s.offset_
  let aligned := if addr % alignment = 0 then addr else addr + (alignment - addr % alignment)
  decide (aligned < SIZE_MOD ∧ aligned - s.buffer_ + bytes < SIZE_MOD)

/-- The state of a resource and the blocks its caller holds after a sequence of
calls: a successful `allocate` adds the block it returns, a `deallocate` removes
one block with that address and size. -/
def MapMemoryResource.run_live (s : MapMemoryResource) (live : Blocks) :
    List Call → MapMemoryResource × Blocks
  | [] => (s, live)
  | .allocate bytes alignment :: calls =>
    match s.do_allocate bytes alignment with
    | (.ok p, s1) => MapMemoryResource.run_live s1 ((p, bytes) :: live) calls
    | (.error _, s1) => MapMemoryResource.run_live s1 live calls
  | .deallocate ptr bytes alignment :: calls =>
    MapMemoryResource.run_live (s.do_deallocate ptr bytes alignment) (live.remove (ptr, bytes)) calls

/-- An honest caller: every `deallocate` passes a block the caller holds at that
moment, with the size it was requested with, and every `allocate` that reaches
the bump path has sums that do not overflow. -/
def MapMemoryResource.honest (s : MapMemoryResource) (live : Blocks) : List Call → Bool
  | [] => true
  | .allocate bytes alignment :: calls =>
    (s.recycles bytes || s.no_overflow bytes alignment) &&
      match s.do_allocate bytes alignment with
      | (.ok p, s1) => MapMemoryResource.honest s1 ((p, bytes) :: live) calls
      | (.error _, s1) => MapMemoryResource.honest s1 live calls
  | .deallocate ptr bytes alignment :: calls =>
    decide ((ptr, bytes) ∈ live) &&
      MapMemoryResource.honest (s.do_deallocate ptr bytes alignment) (live.remove (ptr, bytes)) calls

/-- The blocks the caller holds and the blocks the registry holds lie in the
carved part `[buffer_, buffer_ + offset_)` of the buffer, no two of them overlap,
and the offset is within the capacity. -/
def MapMemoryResource.separated (s : MapMemoryResource) (live : Blocks) : Prop :=
  (∀ blk ∈ live ++ s.free_blocks_.blocks,
      s.buffer_ ≤ blk.1 ∧ blk.1 + blk.2 ≤ s.buffer_ + s.offset_) ∧
    (live ++ s.free_blocks_.blocks).Pairwise Blocks.disjoint ∧ s.offset_ ≤ s.size_

/-! ## The registry -/

theorem FreeMap.push_back_at_lower_bound (m : FreeMap) (n p : Nat) :
    ∃ v, (m.push_back_at n p)[(m.push_back_at n p).lower_bound n]? = some (n, v ++ [p]) := by
  induction m with
  | nil => exact ⟨[], by simp [FreeMap.push_back_at, FreeMap.lower_bound]⟩
  | cons e rest ih =>
    obtain ⟨k, v⟩ := e
    by_cases h1 : k < n
    · obtain ⟨w, hw⟩ := ih
      exact ⟨w, by simpa [FreeMap.push_back_at, FreeMap.lower_bound, h1] using hw⟩
    · by_cases h2 : k = n
      · subst h2
        exact ⟨v, by simp [FreeMap.push_back_at, FreeMap.lower_bound]⟩
      · exact ⟨[], by simp [FreeMap.push_back_at, FreeMap.lower_bound, h1, h2]⟩

/-- In an ordered map `lower_bound` stops at the entry of the smallest key that
is not less than the one asked for. -/
theorem FreeMap.lower_bound_smallest (m : FreeMap) (hs : KeysSorted m) (bytes k : Nat)
    (v : List Nat) (hmem : (k, v) ∈ m) (hk : bytes ≤ k)
    (hmin : ∀ e ∈ m, bytes ≤ e.1 → k ≤ e.1) :
    m[m.lower_bound bytes]? = some (k, v) := by
  induction m with
  | nil => simp at hmem
  | cons e rest ih =>
    obtain ⟨k0, v0⟩ := e
    have hs2 := List.pairwise_cons.mp hs
    by_cases h1 : k0 < bytes
    · have hin : (k, v) ∈ rest := by
        rcases List.mem_cons.mp hmem with h | h
        · have : k = k0 := congrArg Prod.fst h
          omega
        · exact h
      have := ih hs2.2 hin (fun e he => hmin e (List.mem_cons_of_mem _ he))
      simpa [FreeMap.lower_bound, h1] using this
    · have hle : k ≤ k0 := hmin (k0, v0) (List.mem_cons_self _ _) (by simpa using h1)
      rcases List.mem_cons.mp hmem with h | h
      · simp [FreeMap.lower_bound, h1, h]
      · have := hs2.1 (k, v) h
        simp at this
        omega

/-- Nothing is registered from `lower_bound` on exactly when every key is smaller. -/
theorem FreeMap.lower_bound_end (m : FreeMap) (bytes : Nat) :
    m[m.lower_bound bytes]? = none ↔ ∀ e ∈ m, e.1 < bytes := by
  induction m with
  | nil => simp [FreeMap.lower_bound]
  | cons e rest ih =>
    obtain ⟨k0, v0⟩ := e
    by_cases h1 : k0 < bytes
    · simp [FreeMap.lower_bound, h1, ih]
    · simp [FreeMap.lower_bound, h1]

/-- The entry `lower_bound` stops at has a key that is not less than the one
asked for and that no registered key of that kind is below. -/
theorem FreeMap.lower_bound_some (m : FreeMap) (hs : KeysSorted m) (bytes k : Nat)
    (v : List Nat) (h : m[m.lower_bound bytes]? = some (k, v)) :
    (k, v) ∈ m ∧ bytes ≤ k ∧ ∀ e ∈ m, bytes ≤ e.1 → k ≤ e.1 := by
  induction m with
  | nil => simp [FreeMap.lower_bound] at h
  | cons e rest ih =>
    obtain ⟨k0, v0⟩ := e
    have hs2 := List.pairwise_cons.mp hs
    by_cases h1 : k0 < bytes
    · have h2 : rest[FreeMap.lower_bound rest bytes]? = some (k, v) := by
        simpa [FreeMap.lower_bound, h1] using h
      obtain ⟨a, b, c⟩ := ih hs2.2 h2
      refine ⟨List.mem_cons_of_mem _ a, b, ?_⟩
      intro e he hb
      rcases List.mem_cons.mp he with h3 | h3
      · subst h3
        simp at hb
        omega
      · exact c e h3 hb
    · have h2 : (k0, v0) = (k, v) := by simpa [FreeMap.lower_bound, h1] using h
      cases h2
      refine ⟨List.mem_cons_self _ _, by omega, ?_⟩
      intro e he _
      rcases List.mem_cons.mp he with h3 | h3
      · subst h3
        exact le_refl _
      · exact le_of_lt (hs2.1 e h3)

theorem FreeMap.find_of_mem (m : FreeMap) (hs : KeysSorted m) (k : Nat) (v : List Nat)
    (hmem : (k, v) ∈ m) : m.find k = some v := by
  induction m with
  | nil => simp at hmem
  | cons e rest ih =>
    obtain ⟨k0, v0⟩ := e
    have hs2 := List.pairwise_cons.mp hs
    rcases List.mem_cons.mp hmem with h | h
    · cases h
      simp [FreeMap.find]
    · have hlt := hs2.1 (k, v) h
      simp at hlt
      have hne : ¬ k0 = k := by omega
      simp [FreeMap.find, hne, ih hs2.2 h]

/-- Replacing the vector of the entry at a position: the key keeps its place,
its vector is the new one, and no other key is touched. -/
theorem FreeMap.find_set (m : FreeMap) (hs : KeysSorted m) (i k : Nat) (v w : List Nat)
    (h : m[i]? = some (k, v)) (key : Nat) :
    FreeMap.find (m.set i (k, w)) key = if key = k then some w else m.find key := by
  induction m generalizing i with
  | nil => simp at h
  | cons e rest ih =>
    obtain ⟨k0, v0⟩ := e
    have hs2 := List.pairwise_cons.mp hs
    cases i with
    | zero =>
      simp at h
      obtain ⟨rfl, rfl⟩ := h
      by_cases hk : key = k0
      · simp [FreeMap.find, hk]
      · have hk2 : ¬ k0 = key := fun h => hk h.symm
        simp [FreeMap.find, hk, hk2]
    | succ j =>
      have h2 : rest[j]? = some (k, v) := by simpa using h
      have hmem : (k, v) ∈ rest := List.getElem?_mem h2
      have hlt := hs2.1 (k, v) hmem
      simp at hlt
      by_cases hk : k0 = key
      · have hne : ¬ key = k := by omega
        simp [FreeMap.find, hk, hne]
      · simp [FreeMap.find, hk, ih hs2.2 j h2]

theorem FreeMap.keysSorted_set (m : FreeMap) (hs : KeysSorted m) (i k : Nat) (v w : List Nat)
    (h : m[i]? = some (k, v)) : KeysSorted (m.set i (k, w)) := by
  induction m generalizing i with
  | nil => simp at h
  | cons e rest ih =>
    obtain ⟨k0, v0⟩ := e
    have hs2 := List.pairwise_cons.mp hs
    cases i with
    | zero =>
      simp at h
      obtain ⟨rfl, rfl⟩ := h
      exact List.pairwise_cons.mpr ⟨hs2.1, hs2.2⟩
    | succ j =>
      have h2 : rest[j]? = some (k, v) := by simpa using h
      refine List.pairwise_cons.mpr ⟨?_, ih hs2.2 j h2⟩
      intro e he
      rcases List.mem_or_eq_of_mem_set he with h3 | h3
      · exact hs2.1 e h3
      · subst h3
        exact hs2.1 (k, v) (List.getElem?_mem h2)

theorem FreeMap.find_eq_none_of_lt (m : FreeMap) (key : Nat) (h : ∀ e ∈ m, key < e.1) :
    m.find key = none := by
  induction m with
  | nil => rfl
  | cons e rest ih =>
    obtain ⟨k0, v0⟩ := e
    have h0 := h (k0, v0) (List.mem_cons_self _ _)
    simp at h0
    have hne : ¬ k0 = key := by omega
    simp [FreeMap.find, hne, ih (fun e he => h e (List.mem_cons_of_mem _ he))]

/-- What `free_blocks_[bytes].push_back(ptr)` does to the map, key by key. -/
theorem FreeMap.find_push_back_at (m : FreeMap) (hs : KeysSorted m) (bytes ptr key : Nat) :
    (m.push_back_at bytes ptr).find key =
      if key = bytes then some ((m.find bytes).getD [] ++ [ptr]) else m.find key := by
  induction m with
  | nil =>
    by_cases hk : key = bytes
    · simp [FreeMap.push_back_at, FreeMap.find, hk]
    · have hk2 : ¬ bytes = key := fun h => hk h.symm
      simp [FreeMap.push_back_at, FreeMap.find, hk, hk2]
  | cons e rest ih =>
    obtain ⟨k0, v0⟩ := e
    have hs2 := List.pairwise_cons.mp hs
    by_cases h1 : k0 < bytes
    · have hne : ¬ k0 = bytes := by omega
      by_cases hk : k0 = key
      · subst hk
        simp [FreeMap.push_back_at, FreeMap.find, h1, hne]
      · simp [FreeMap.push_back_at, FreeMap.find, h1, hk, hne, ih hs2.2]
    · by_cases h2 : k0 = bytes
      · subst h2
        by_cases hk : key = k0
        · simp [FreeMap.push_back_at, FreeMap.find, hk]
        · have hk2 : ¬ k0 = key := fun h => hk h.symm
          simp [FreeMap.push_back_at, FreeMap.find, hk, hk2]
      · have hnone : FreeMap.find rest bytes = none := by
          apply FreeMap.find_eq_none_of_lt
          intro e he
          have := hs2.1 e he
          simp at this
          omega
        by_cases hk : key = bytes
        · simp [FreeMap.push_back_at, FreeMap.find, h1, h2, hk, hnone]
        · have hk2 : ¬ bytes = key := fun h => hk h.symm
          simp [FreeMap.push_back_at, FreeMap.find, h1, h2, hk, hk2]

theorem FreeMap.key_of_mem_push_back_at (m : FreeMap) (bytes ptr : Nat) (e : Nat × List Nat)
    (he : e ∈ m.push_back_at bytes ptr) : e.1 = bytes ∨ ∃ d ∈ m, d.1 = e.1 := by
  induction m with
  | nil =>
    simp [FreeMap.push_back_at] at he
    exact Or.inl (by rw [he])
  | cons d rest ih =>
    obtain ⟨k0, v0⟩ := d
    by_cases h1 : k0 < bytes
    · simp only [FreeMap.push_back_at, h1, if_true, List.mem_cons] at he
      rcases he with h | h
      · exact Or.inr ⟨(k0, v0), List.mem_cons_self _ _, by rw [h]⟩
      · rcases ih h with h3 | ⟨d, hd, hd2⟩
        · exact Or.inl h3
        · exact Or.inr ⟨d, List.mem_cons_of_mem _ hd, hd2⟩
    · by_cases h2 : k0 = bytes
      · subst h2
        simp [FreeMap.push_back_at] at he
        rcases he with h | h
        · exact Or.inl (by rw [h])
        · exact Or.inr ⟨e, List.mem_cons_of_mem _ h, rfl⟩
      · simp only [FreeMap.push_back_at, h1, h2, if_false, List.mem_cons] at he
        rcases he with h | h | h
        · exact Or.inl (by rw [h])
        · exact Or.inr ⟨(k0, v0), List.mem_cons_self _ _, by rw [h]⟩
        · exact Or.inr ⟨e, List.mem_cons_of_mem _ h, rfl⟩

/-- The map stays ordered under `free_blocks_[bytes].push_back(ptr)`. -/
theorem FreeMap.keysSorted_push_back_at (m : FreeMap) (hs : KeysSorted m) (bytes ptr : Nat) :
    KeysSorted (m.push_back_at bytes ptr) := by
  induction m with
  | nil => simp [FreeMap.push_back_at, KeysSorted]
  | cons d rest ih =>
    obtain ⟨k0, v0⟩ := d
    have hs2 := List.pairwise_cons.mp hs
    by_cases h1 : k0 < bytes
    · simp only [FreeMap.push_back_at, h1, if_true]
      refine List.pairwise_cons.mpr ⟨?_, ih hs2.2⟩
      intro e he
      rcases FreeMap.key_of_mem_push_back_at rest bytes ptr e he with h | ⟨d, hd, hd2⟩
      · simp only [h]
        exact h1
      · have := hs2.1 d hd
        simp only [hd2] at this
        exact this
    · by_cases h2 : k0 = bytes
      · subst h2
        simp only [FreeMap.push_back_at, lt_irrefl, if_true, if_false]
        exact List.pairwise_cons.mpr ⟨fun e he => hs2.1 e he, hs2.2⟩
      · simp only [FreeMap.push_back_at, h1, h2, if_false]
        refine List.pairwise_cons.mpr ⟨?_, hs⟩
        intro e he
        rcases List.mem_cons.mp he with h | h
        · subst h
          show bytes < k0
          omega
        · have := hs2.1 e h
          show bytes < e.1
          simp at this
          omega

/-! ## The facade -/

theorem MapMemoryResource.do_allocate_of_not_recycles (s : MapMemoryResource)
    (bytes alignment : Nat) (h : s.recycles bytes = false) :
    s.do_allocate bytes alignment = s.allocate_from_buffer bytes alignment := by
  unfold MapMemoryResource.recycles at h
  unfold MapMemoryResource.do_allocate
  cases hg : s.free_blocks_[s.free_blocks_.lower_bound bytes]? with
  | none => simp only [hg]
  | some e =>
    obtain ⟨k, v⟩ := e
    rw [hg] at h
    cases v with
    | nil => simp only [hg, List.getLast?_nil]
    | cons a t => simp at h

/-- The recycling path of `do_allocate`, at the entry `lower_bound` stops at. -/
theorem MapMemoryResource.do_allocate_of_entry (s : MapMemoryResource) (bytes alignment k : Nat)
    (v : List Nat) (hne : v ≠ [])
    (h : s.free_blocks_[s.free_blocks_.lower_bound bytes]? = some (k, v)) :
    s.do_allocate bytes alignment =
      (.ok (v.getLast hne),
        { s with free_blocks_ :=
            s.free_blocks_.set (s.free_blocks_.lower_bound bytes) (k, v.dropLast) }) := by
  unfold MapMemoryResource.do_allocate
  simp only [h]
  rw [List.getLast?_eq_getLast v hne]

/-- The registry misses a request exactly when no key is large enough or the
smallest key that is large enough has an empty vector. -/
theorem MapMemoryResource.recycles_eq_false_iff (s : MapMemoryResource)
    (hs : KeysSorted s.free_blocks_) (bytes : Nat) :
    s.recycles bytes = false ↔
      ((∀ e ∈ s.free_blocks_, e.1 < bytes) ∨
        ∃ k, (k, []) ∈ s.free_blocks_ ∧ bytes ≤ k ∧
          ∀ e ∈ s.free_blocks_, bytes ≤ e.1 → k ≤ e.1) := by
  unfold MapMemoryResource.recycles
  constructor
  · intro h
    cases hg : s.free_blocks_[s.free_blocks_.lower_bound bytes]? with
    | none => exact Or.inl ((FreeMap.lower_bound_end _ _).mp hg)
    | some e =>
      obtain ⟨k, v⟩ := e
      rw [hg] at h
      cases v with
      | nil => exact Or.inr ⟨k, FreeMap.lower_bound_some _ hs bytes k [] hg⟩
      | cons a t => simp at h
  · rintro (h | ⟨k, hmem, hk, hmin⟩)
    · rw [(FreeMap.lower_bound_end _ _).mpr h]
    · rw [FreeMap.lower_bound_smallest _ hs bytes k [] hmem hk hmin]
      rfl

theorem MapMemoryResource.align_up_eq (addr alignment : Nat) (ha : 0 < alignment) :
    MapMemoryResource.align_up addr alignment =
      .ok (if addr % alignment = 0 then addr
        else (addr + (alignment - addr % alignment)) % SIZE_MOD) := by
  have h0 : ¬ alignment = 0 := by omega
  simp [MapMemoryResource.align_up, h0]

/-- The next multiple of the alignment, before the reduction modulo `SIZE_MOD`. -/
theorem MapMemoryResource.next_multiple (addr alignment : Nat) (ha : 0 < alignment) :
    addr + (alignment - addr % alignment) = alignment * (addr / alignment + 1) := by
  have h1 := Nat.div_add_mod addr alignment
  have h2 := Nat.mod_lt addr ha
  rw [Nat.mul_add, Nat.mul_one]
  omega

/-- With a power of two as alignment `align_up` returns a multiple of it, also
when the sum wraps around. -/
theorem MapMemoryResource.align_up_pow_two (addr j r : Nat) (hj : j ≤ 64)
    (h : MapMemoryResource.align_up addr (2 ^ j) = .ok r) : r % 2 ^ j = 0 := by
  have ha : 0 < 2 ^ j := Nat.pow_pos (by decide)
  rw [MapMemoryResource.align_up_eq addr _ ha] at h
  injection h with h
  subst h
  by_cases hm : addr % 2 ^ j = 0
  · simp [hm]
  · have hd : 2 ^ j ∣ SIZE_MOD := by
      unfold SIZE_MOD
      exact Nat.pow_dvd_pow 2 hj
    simp only [hm, if_false]
    rw [Nat.mod_mod_of_dvd _ hd, MapMemoryResource.next_multiple addr _ ha]
    exact Nat.mul_mod_right _ _

/-- A call of `allocate_from_buffer` that raises leaves the object as it was. -/
theorem MapMemoryResource.allocate_from_buffer_error (s : MapMemoryResource)
    (bytes alignment : Nat) (e : Exn)
    (h : (s.allocate_from_buffer bytes alignment).1 = .error e) :
    (s.allocate_from_buffer bytes alignment).2 = s := by
  unfold MapMemoryResource.allocate_from_buffer at h ⊢
  cases hg : MapMemoryResource.align_up ((s.buffer_ + s.offset_) % SIZE_MOD) alignment with
  | error x => simp only [hg]
  | ok aligned =>
    simp only [hg] at h ⊢
    split at h
    · rename_i hgt
      simp only [hgt, if_true]
    · simp at h

/-- A call of `do_allocate` that raises leaves the object as it was. -/
theorem MapMemoryResource.do_allocate_error (s : MapMemoryResource)
    (bytes alignment : Nat) (e : Exn) (h : (s.do_allocate bytes alignment).1 = .error e) :
    (s.do_allocate bytes alignment).2 = s := by
  by_cases hr : s.recycles bytes = false
  · rw [MapMemoryResource.do_allocate_of_not_recycles s bytes alignment hr] at h ⊢
    exact MapMemoryResource.allocate_from_buffer_error s bytes alignment e h
  · exfalso
    unfold MapMemoryResource.recycles at hr
    unfold MapMemoryResource.do_allocate at h
    cases hg : s.free_blocks_[s.free_blocks_.lower_bound bytes]? with
    | none => simp [hg] at hr
    | some d =>
      obtain ⟨k, v⟩ := d
      cases v with
      | nil => simp [hg] at hr
      | cons a t =>
        simp only [hg] at h
        rw [List.getLast?_eq_getLast (a :: t) (by simp)] at h
        simp at h

/-- The bump path where nothing wraps around: with `r` the least multiple of the
alignment from `buffer_ + offset_` on, `r` an address and `r - buffer_ + bytes` a
size, the call raises `bad_alloc` without a change when that size exceeds the
capacity, and otherwise returns `r` and stores that size as the offset. -/
theorem MapMemoryResource.allocate_from_buffer_no_wrap (s : MapMemoryResource)
    (bytes alignment r : Nat) (ha : 0 < alignment)
    (hge : s.buffer_ + s.offset_ ≤ r) (hmod : r % alignment = 0)
    (hleast : ∀ x, s.buffer_ + s.offset_ ≤ x → x % alignment = 0 → r ≤ x)
    (hr : r < SIZE_MOD) (hsz : r - s.buffer_ + bytes < SIZE_MOD) :
    s.allocate_from_buffer bytes alignment =
      if r - s.buffer_ + bytes > s.size_ then (.error .bad_alloc, s)
      else (.ok r, { s with offset_ := r - s.buffer_ + bytes }) := by
  have haddr : (s.buffer_ + s.offset_) % SIZE_MOD = s.buffer_ + s.offset_ :=
    Nat.mod_eq_of_lt (by omega)
  have hal : MapMemoryResource.align_up (s.buffer_ + s.offset_) alignment = .ok r := by
    rw [MapMemoryResource.align_up_eq _ _ ha]
    by_cases hm : (s.buffer_ + s.offset_) % alignment = 0
    · have := hleast _ (le_refl _) hm
      have : s.buffer_ + s.offset_ = r := by omega
      rw [if_pos hm, this]
    · have hnm := MapMemoryResource.next_multiple (s.buffer_ + s.offset_) alignment ha
      have hlt := Nat.mod_lt (s.buffer_ + s.offset_) ha
      have hc : r ≤ (s.buffer_ + s.offset_) + (alignment - (s.buffer_ + s.offset_) % alignment) := by
        apply hleast
        · omega
        · rw [hnm]
          exact Nat.mul_mod_right _ _
      have hc2 : (s.buffer_ + s.offset_) + (alignment - (s.buffer_ + s.offset_) % alignment) ≤ r := by
        rw [hnm]
        obtain ⟨t, ht⟩ := Nat.dvd_of_mod_eq_zero hmod
        rw [ht]
        apply Nat.mul_le_mul_left
        have h1 := Nat.div_add_mod (s.buffer_ + s.offset_) alignment
        have h2 : alignment * ((s.buffer_ + s.offset_) / alignment) < alignment * t := by
          rw [← ht]
          omega
        have := Nat.lt_of_mul_lt_mul_left h2
        omega
      have heq : (s.buffer_ + s.offset_) + (alignment - (s.buffer_ + s.offset_) % alignment) = r :=
        le_antisymm hc2 hc
      simp only [hm, if_false, heq, Nat.mod_eq_of_lt hr]
  have hsub : (r + SIZE_MOD - s.buffer_) % SIZE_MOD = r - s.buffer_ := by
    have : r + SIZE_MOD - s.buffer_ = (r - s.buffer_) + SIZE_MOD := by omega
    rw [this, Nat.add_mod_right]
    exact Nat.mod_eq_of_lt (by omega)
  unfold MapMemoryResource.allocate_from_buffer
  simp only [haddr, hal, hsub, Nat.mod_eq_of_lt hsz]

/-- Without a wrap-around a request larger than what is left of the buffer is
refused by the bump path. -/
theorem MapMemoryResource.allocate_from_buffer_over_capacity (s : MapMemoryResource)
    (bytes alignment r : Nat) (ha : 0 < alignment)
    (hge : s.buffer_ + s.offset_ ≤ r) (hmod : r % alignment = 0)
    (hleast : ∀ x, s.buffer_ + s.offset_ ≤ x → x % alignment = 0 → r ≤ x)
    (hr : r < SIZE_MOD) (hsz : r - s.buffer_ + bytes < SIZE_MOD)
    (hover : bytes > s.size_ - s.offset_) :
    s.allocate_from_buffer bytes alignment = (.error .bad_alloc, s) := by
  rw [MapMemoryResource.allocate_from_buffer_no_wrap s bytes alignment r ha hge hmod hleast hr hsz]
  have : r - s.buffer_ + bytes > s.size_ := by omega
  rw [if_pos this]

/-! ## Claims on the facade -/

/-- C1. Size-class reuse: in every state of the resource, for every pointer `p`,
size `n` and alignments `a` and `a'`, the call `deallocate(p, n, a)` followed at
once by `allocate(n, a')` returns exactly `p`, does not throw, and the bump offset
is what it was before the two calls. -/
theorem C1_deallocate_then_allocate_reuses (s : MapMemoryResource) (p n a a' : Nat) :
    ((s.do_deallocate p n a).do_allocate n a').1 = .ok p ∧
      ((s.do_deallocate p n a).do_allocate n a').2.offset_ = s.offset_ ∧
      (s.do_deallocate p n a).offset_ = s.offset_ := by
  obtain ⟨v, hv⟩ := FreeMap.push_back_at_lower_bound s.free_blocks_ n p
  have hne : v ++ [p] ≠ [] := by simp
  have h := MapMemoryResource.do_allocate_of_entry (s.do_deallocate p n a) n a' n (v ++ [p]) hne
    (by simpa [MapMemoryResource.do_deallocate] using hv)
  rw [h]
  simp [MapMemoryResource.do_deallocate]

/-- C2. Recycling path of `allocate`: in every state (the map ordered, as a
`std::map` is) and for every request, if `k` is the smallest registered key with
`bytes ≤ k` and the vector `v` stored under it is not empty, then `allocate` does
not throw, returns the address inserted last into `v`, leaves under `k` the
vector `v` without that one address, and leaves the bump offset, the buffer, the
capacity and the vector of every other key unchanged. -/
theorem C2_allocate_recycles_smallest_class (s : MapMemoryResource) (bytes alignment k : Nat)
    (v : List Nat) (hs : KeysSorted s.free_blocks_) (hmem : (k, v) ∈ s.free_blocks_)
    (hk : bytes ≤ k) (hmin : ∀ e ∈ s.free_blocks_, bytes ≤ e.1 → k ≤ e.1) (hne : v ≠ []) :
    (s.do_allocate bytes alignment).1 = .ok (v.getLast hne) ∧
      v = v.dropLast ++ [v.getLast hne] ∧
      (s.do_allocate bytes alignment).2.free_blocks_.find k = some v.dropLast ∧
      (∀ key, key ≠ k →
        (s.do_allocate bytes alignment).2.free_blocks_.find key = s.free_blocks_.find key) ∧
      (s.do_allocate bytes alignment).2.offset_ = s.offset_ ∧
      (s.do_allocate bytes alignment).2.buffer_ = s.buffer_ ∧
      (s.do_allocate bytes alignment).2.size_ = s.size_ ∧
      KeysSorted (s.do_allocate bytes alignment).2.free_blocks_ := by
  have hlb := FreeMap.lower_bound_smallest s.free_blocks_ hs bytes k v hmem hk hmin
  rw [MapMemoryResource.do_allocate_of_entry s bytes alignment k v hne hlb]
  refine ⟨rfl, (List.dropLast_append_getLast hne).symm, ?_, ?_, rfl, rfl, rfl, ?_⟩
  · simp [FreeMap.find_set s.free_blocks_ hs _ k v v.dropLast hlb k]
  · intro key hkey
    simp [FreeMap.find_set s.free_blocks_ hs _ k v v.dropLast hlb key, hkey]
  · exact FreeMap.keysSorted_set s.free_blocks_ hs _ k v v.dropLast hlb

/-- C2 at a concrete state: classes 16, 64 and 128, a request of 32 bytes. -/
theorem C2_allocate_recycles_smallest_class_witness :
    (MapMemoryResource.do_allocate ⟨4096, 1024, 512, [(16, [4096]), (64, [4112, 4176]),
        (128, [4240])]⟩ 32 8).1 = .ok 4176 ∧
      (MapMemoryResource.do_allocate ⟨4096, 1024, 512, [(16, [4096]), (64, [4112, 4176]),
        (128, [4240])]⟩ 32 8).2.free_blocks_.find 64 = some [4112] :=
  have h := C2_allocate_recycles_smallest_class
    ⟨4096, 1024, 512, [(16, [4096]), (64, [4112, 4176]), (128, [4240])]⟩ 32 8 64 [4112, 4176]
    (by decide) (by decide) (by decide) (by decide) (by decide)
  ⟨h.1, h.2.2.1⟩

/-- C3, the code at an input where the sum wraps around. A resource of capacity
1024 at address 4096 has served `allocate(8, 1)`, so its offset is 8 and its
registry is empty. For `allocate(2 ^ 64 - 1, 1)` the least aligned address from
`buffer + offset` on is `r = 4104` and `r - buffer + bytes = 2 ^ 64 + 7` exceeds
the capacity, so the carve operation has to fail; `allocate_from_buffer` reduces
the sum modulo `2 ^ 64` to 7, returns 4104 and moves the offset from 8 back to 7. -/
theorem C3_bump_path_wraps_around :
    (MapMemoryResource.ctor 4096 1024).run [.allocate 8 1] = ⟨4096, 1024, 8, []⟩ ∧
      MapMemoryResource.recycles ⟨4096, 1024, 8, []⟩ (2 ^ 64 - 1) = false ∧
      (4096 + 8 ≤ 4104 ∧ 4104 % 1 = 0 ∧ 4104 - 4096 + (2 ^ 64 - 1) > 1024) ∧
      MapMemoryResource.do_allocate ⟨4096, 1024, 8, []⟩ (2 ^ 64 - 1) 1 =
        (.ok 4104, ⟨4096, 1024, 7, []⟩) := by
  decide

/-- C4, refuted as stated. A resource of capacity 1024 at address 4096 serves
`allocate(1, 1)` and `allocate(64, 1)`, the second block, at 4097, is released,
and `allocate(64, 32)` then succeeds with 4097, which is not a multiple of the
power of two 32. -/
theorem C4_counterexample :
    (MapMemoryResource.ctor 4096 1024).run
        [.allocate 1 1, .allocate 64 1, .deallocate 4097 64 1] =
        ⟨4096, 1024, 65, [(64, [4097])]⟩ ∧
      (MapMemoryResource.do_allocate ⟨4096, 1024, 65, [(64, [4097])]⟩ 64 (2 ^ 5)).1 = .ok 4097 ∧
      4097 % 2 ^ 5 ≠ 0 := by
  decide

/-- C4, amended. In every state, a successful `allocate(bytes, alignment)` that
the registry does not serve (the bump path) and whose alignment is a power of
two `2 ^ j` in the range of `size_t` returns an address that is a multiple of
the alignment. -/
theorem C4_bump_path_is_aligned (s : MapMemoryResource) (bytes j p : Nat) (hj : j < 64)
    (hmiss : s.recycles bytes = false) (hok : (s.do_allocate bytes (2 ^ j)).1 = .ok p) :
    p % 2 ^ j = 0 := by
  rw [MapMemoryResource.do_allocate_of_not_recycles s bytes _ hmiss] at hok
  unfold MapMemoryResource.allocate_from_buffer at hok
  cases hg : MapMemoryResource.align_up ((s.buffer_ + s.offset_) % SIZE_MOD) (2 ^ j) with
  | error x => simp [hg] at hok
  | ok aligned =>
    simp only [hg] at hok
    split at hok
    · simp at hok
    · simp at hok
      subst hok
      exact MapMemoryResource.align_up_pow_two _ j aligned (by omega) hg

/-- C4 amended, at a concrete state: a buffer at the odd address 4101, 16 bytes
aligned to 8. -/
theorem C4_bump_path_is_aligned_witness :
    (MapMemoryResource.do_allocate ⟨4101, 1024, 3, [(8, [])]⟩ 16 (2 ^ 3)).1 = .ok 4104 ∧
      4104 % 2 ^ 3 = 0 :=
  ⟨by decide,
    C4_bump_path_is_aligned ⟨4101, 1024, 3, [(8, [])]⟩ 16 3 4104 (by decide) (by decide)
      (by decide)⟩

/-- C5. Failure atomicity of `allocate`: in every state and for every request, if
`allocate` throws `bad_alloc` then the object, bump offset and registry included,
is exactly as before the call, so that every later request has the outcome and
the effect it would have had before the failed call. -/
theorem C5_failed_allocate_changes_nothing (s : MapMemoryResource) (bytes alignment : Nat)
    (h : (s.do_allocate bytes alignment).1 = .error .bad_alloc) :
    (s.do_allocate bytes alignment).2 = s ∧
      (s.do_allocate bytes alignment).2.offset_ = s.offset_ ∧
      (s.do_allocate bytes alignment).2.free_blocks_ = s.free_blocks_ ∧
      ∀ b a, (s.do_allocate bytes alignment).2.do_allocate b a = s.do_allocate b a := by
  have hs := MapMemoryResource.do_allocate_error s bytes alignment _ h
  rw [hs]
  exact ⟨rfl, rfl, rfl, fun _ _ => rfl⟩

/-- C5 at a concrete state: the test `OutOfMemoryThrows`, 20 bytes from a buffer
of 10, after which 5 bytes are served. -/
theorem C5_failed_allocate_changes_nothing_witness :
    ((MapMemoryResource.ctor 4096 10).do_allocate 20 1).1 = .error .bad_alloc ∧
      ((MapMemoryResource.ctor 4096 10).do_allocate 20 1).2 = MapMemoryResource.ctor 4096 10 ∧
      (((MapMemoryResource.ctor 4096 10).do_allocate 20 1).2.do_allocate 5 1).1 = .ok 4096 :=
  have h := C5_failed_allocate_changes_nothing (MapMemoryResource.ctor 4096 10) 20 1 (by decide)
  ⟨by decide, h.1, by rw [h.2.2.2]; decide⟩

/-- C6, the code at an input where the sum wraps around. A resource of capacity
1024 at address 4096 has served `allocate(16, 8)`, so its offset is 16 and its
registry is empty. The request `bytes = 2 ^ 64 - 16` is a value of `size_t` and
exceeds `capacity - offset = 1008`, yet `allocate(bytes, 1)` does not throw: it
returns 4112 and sets the offset to `(16 + bytes) % 2 ^ 64 = 0`. -/
theorem C6_over_capacity_request_succeeds :
    (MapMemoryResource.ctor 4096 1024).run [.allocate 16 8] = ⟨4096, 1024, 16, []⟩ ∧
      2 ^ 64 - 16 < SIZE_MOD ∧ 2 ^ 64 - 16 > 1024 - 16 ∧
      MapMemoryResource.do_allocate ⟨4096, 1024, 16, []⟩ (2 ^ 64 - 16) 1 =
        (.ok 4112, ⟨4096, 1024, 0, []⟩) := by
  decide

/-- C7, refuted as stated. A resource of capacity 192 serves `allocate(64, 1)` and
`allocate(128, 1)`, which fill it; the first block is released and served again,
which leaves the class 64 registered and empty; the second block is released.
The registry now holds the free address 4160 under the key 128, which is not
less than 64, and `allocate(64, 1)` throws `bad_alloc`: `lower_bound` stops at
the empty class 64 and the bump path has no room. -/
theorem C7_counterexample :
    (MapMemoryResource.ctor 4096 192).run
        [.allocate 64 1, .allocate 128 1, .deallocate 4096 64 1, .allocate 64 1,
          .deallocate 4160 128 1] = ⟨4096, 192, 192, [(64, []), (128, [4160])]⟩ ∧
      ((128, [4160]) ∈ [((64 : Nat), ([] : List Nat)), (128, [4160])] ∧ 64 ≤ 128 ∧
        4160 ∈ [4160]) ∧
      MapMemoryResource.do_allocate ⟨4096, 192, 192, [(64, []), (128, [4160])]⟩ 64 1 =
        (.error .bad_alloc, ⟨4096, 192, 192, [(64, []), (128, [4160])]⟩) := by
  decide

/-- C7, amended. In every state (the map ordered, as a `std::map` is) and for
every request, if the class of the smallest registered key that is not less than
`bytes` holds at least one free address, then `allocate` succeeds. -/
theorem C7_allocate_succeeds_when_smallest_class_has_block (s : MapMemoryResource)
    (bytes alignment k : Nat) (v : List Nat) (hs : KeysSorted s.free_blocks_)
    (hmem : (k, v) ∈ s.free_blocks_) (hk : bytes ≤ k)
    (hmin : ∀ e ∈ s.free_blocks_, bytes ≤ e.1 → k ≤ e.1) (hne : v ≠ []) :
    ∃ p, p ∈ v ∧ (s.do_allocate bytes alignment).1 = .ok p := by
  have hlb := FreeMap.lower_bound_smallest s.free_blocks_ hs bytes k v hmem hk hmin
  rw [MapMemoryResource.do_allocate_of_entry s bytes alignment k v hne hlb]
  exact ⟨v.getLast hne, List.getLast_mem hne, rfl⟩

/-- C7 amended, at a concrete state: the full arena of the counterexample with a
block in the class 64. -/
theorem C7_allocate_succeeds_when_smallest_class_has_block_witness :
    ∃ p, p ∈ [4096] ∧
      (MapMemoryResource.do_allocate ⟨4096, 192, 192, [(64, [4096]), (128, [4160])]⟩ 64 1).1 =
        .ok p :=
  C7_allocate_succeeds_when_smallest_class_has_block
    ⟨4096, 192, 192, [(64, [4096]), (128, [4160])]⟩ 64 1 64 [4096]
    (by decide) (by decide) (by decide) (by decide) (by decide)

/-- C8. The call `deallocate(ptr, bytes, alignment)` returns normally in every
state (the function is total and has no error outcome); after it the vector
keyed by `bytes` is the former one, or the empty one if the key was absent, with
`ptr` appended at its end; the bump offset, the buffer, the capacity and the
vector of every other key are unchanged; and the resulting state is the same for
any two values of the alignment argument. -/
theorem C8_deallocate_appends_to_its_class (s : MapMemoryResource) (ptr bytes a a' : Nat)
    (hs : KeysSorted s.free_blocks_) :
    (s.do_deallocate ptr bytes a).free_blocks_.find bytes =
        some ((s.free_blocks_.find bytes).getD [] ++ [ptr]) ∧
      (∀ key, key ≠ bytes →
        (s.do_deallocate ptr bytes a).free_blocks_.find key = s.free_blocks_.find key) ∧
      (s.do_deallocate ptr bytes a).offset_ = s.offset_ ∧
      (s.do_deallocate ptr bytes a).buffer_ = s.buffer_ ∧
      (s.do_deallocate ptr bytes a).size_ = s.size_ ∧
      KeysSorted (s.do_deallocate ptr bytes a).free_blocks_ ∧
      s.do_deallocate ptr bytes a = s.do_deallocate ptr bytes a' := by
  refine ⟨?_, ?_, rfl, rfl, rfl, ?_, rfl⟩
  · simp [MapMemoryResource.do_deallocate, FreeMap.find_push_back_at _ hs]
  · intro key hkey
    simp [MapMemoryResource.do_deallocate, FreeMap.find_push_back_at _ hs, hkey]
  · exact FreeMap.keysSorted_push_back_at _ hs bytes ptr

/-- C8 at a concrete state: a block of a class not yet registered is released. -/
theorem C8_deallocate_appends_to_its_class_witness :
    (MapMemoryResource.do_deallocate ⟨4096, 1024, 512, [(16, [4096]), (128, [4240])]⟩
        4112 64 8).free_blocks_.find 64 = some [4112] ∧
      MapMemoryResource.do_deallocate ⟨4096, 1024, 512, [(16, [4096]), (128, [4240])]⟩ 4112 64 8 =
        MapMemoryResource.do_deallocate ⟨4096, 1024, 512, [(16, [4096]), (128, [4240])]⟩
          4112 64 32 :=
  have h := C8_deallocate_appends_to_its_class
    ⟨4096, 1024, 512, [(16, [4096]), (128, [4240])]⟩ 4112 64 8 32 (by decide)
  ⟨h.1, h.2.2.2.2.2.2⟩

/-! ## The list -/

theorem pmr_slist.collect_to_end {T : Type} (chain : List (Node T)) :
    pmr_slist.collect { ptr_ := chain } { ptr_ := [] } = chain.map Node.value := by
  induction chain with
  | nil =>
    rw [pmr_slist.collect]
    simp [pmr_slist.iterator.ne, pmr_slist.iterator.raw]
  | cons n rest ih =>
    rw [pmr_slist.collect]
    simp [pmr_slist.iterator.ne, pmr_slist.iterator.raw, ih]

theorem pmr_slist.values_eq {T : Type} (l : pmr_slist T) : l.values = l.head_.map Node.value :=
  pmr_slist.collect_to_end l.head_

/-- The member `push_front` by the outcome of the `allocate` it calls. -/
theorem pmr_slist.push_front_eq {T : Type} (sz al : Nat) (l : pmr_slist T) (σ : Store) (v : T) :
    pmr_slist.push_front sz al l σ v =
      match ((σ l.alloc_).do_allocate sz al).1 with
      | .ok n =>
        if n = 0 then
          (.null_storage, l, Function.update σ l.alloc_ ((σ l.alloc_).do_allocate sz al).2)
        else if n ∈ l.head_.map Node.addr then
          (.cycle,
            { l with head_ :=
                { addr := n, value := v } :: l.head_.takeWhile (fun x => x.addr != n) },
            Function.update σ l.alloc_ ((σ l.alloc_).do_allocate sz al).2)
        else
          (.ok (), { l with head_ := { addr := n, value := v } :: l.head_ },
            Function.update σ l.alloc_ ((σ l.alloc_).do_allocate sz al).2)
      | .error e => (.error e, l, Function.update σ l.alloc_ ((σ l.alloc_).do_allocate sz al).2) := by
  unfold pmr_slist.push_front
  cases h : (σ l.alloc_).do_allocate sz al with
  | mk r mr => cases r <;> rfl

/-- A `push_front` that is given storage which is neither `nullptr` nor a node of
the list puts the new node before the old chain. -/
theorem pmr_slist.push_front_of_fresh {T : Type} (sz al : Nat) (l : pmr_slist T) (σ : Store)
    (v : T) (n : Nat) (h : ((σ l.alloc_).do_allocate sz al).1 = .ok n) (h0 : n ≠ 0)
    (hf : n ∉ l.head_.map Node.addr) :
    pmr_slist.push_front sz al l σ v =
      (.ok (), { l with head_ := { addr := n, value := v } :: l.head_ },
        Function.update σ l.alloc_ ((σ l.alloc_).do_allocate sz al).2) := by
  rw [pmr_slist.push_front_eq, h]
  simp only [h0, hf, if_false]

/-- A `push_front` that is given the address of a node of the list ends with the
outcome `cycle`. -/
theorem pmr_slist.push_front_of_live {T : Type} (sz al : Nat) (l : pmr_slist T) (σ : Store)
    (v : T) (n : Nat) (h : ((σ l.alloc_).do_allocate sz al).1 = .ok n) (h0 : n ≠ 0)
    (hl : n ∈ l.head_.map Node.addr) :
    pmr_slist.push_front sz al l σ v =
      (.cycle,
        { l with head_ := { addr := n, value := v } :: l.head_.takeWhile (fun x => x.addr != n) },
        Function.update σ l.alloc_ ((σ l.alloc_).do_allocate sz al).2) := by
  rw [pmr_slist.push_front_eq, h]
  simp only [h0, hl, if_false, if_true]

/-- A `push_front` with the outcome `ok ()` was given storage that is neither
`nullptr` nor a node of the list. -/
theorem pmr_slist.push_front_ok {T : Type} (sz al : Nat) (l l' : pmr_slist T) (σ σ' : Store)
    (v : T) (h : pmr_slist.push_front sz al l σ v = (.ok (), l', σ')) :
    ∃ n, ((σ l.alloc_).do_allocate sz al).1 = .ok n ∧ n ≠ 0 ∧ n ∉ l.head_.map Node.addr ∧
      l' = { l with head_ := { addr := n, value := v } :: l.head_ } ∧
      σ' = Function.update σ l.alloc_ ((σ l.alloc_).do_allocate sz al).2 := by
  rw [pmr_slist.push_front_eq] at h
  cases hr : ((σ l.alloc_).do_allocate sz al).1 with
  | error e => simp [hr] at h
  | ok n =>
    simp only [hr] at h
    by_cases h0 : n = 0
    · simp [h0] at h
    · by_cases hl : n ∈ l.head_.map Node.addr
      · simp [h0, hl] at h
      · simp only [h0, hl, if_false, Prod.mk.injEq, true_and] at h
        exact ⟨n, rfl, h0, hl, h.1.symm, h.2.symm⟩

/-- The first call of a run of `push_front` calls that ends with `ok ()` ends with
`ok ()`, and the rest of the run starts from what it leaves. -/
theorem pmr_slist.push_front_each_cons {T : Type} (sz al : Nat) (x : T) (xs : List T)
    (l l' : pmr_slist T) (σ σ' : Store)
    (h : pmr_slist.push_front_each sz al l σ (x :: xs) = (.ok (), l', σ')) :
    ∃ l1 σ1, pmr_slist.push_front sz al l σ x = (.ok (), l1, σ1) ∧
      pmr_slist.push_front_each sz al l1 σ1 xs = (.ok (), l', σ') := by
  unfold pmr_slist.push_front_each at h
  cases hp : pmr_slist.push_front sz al l σ x with
  | mk r rest =>
    obtain ⟨l1, σ1⟩ := rest
    rw [hp] at h
    cases r with
    | ok u => exact ⟨l1, σ1, rfl, h⟩
    | error e => simp at h
    | null_storage => simp at h
    | cycle => simp at h

/-- A triple whose first component is known. -/
theorem triple_eq_of_fst {α β γ : Type} (x : α × β × γ) (a : α) (h : x.1 = a) :
    x = (a, x.2.1, x.2.2) := by
  obtain ⟨x1, x2, x3⟩ := x
  simp only at h
  rw [h]

/-! ## Claims on the list -/

/-- The state of a resource after the addresses of a chain of nodes, head first,
have been released one by one. -/
theorem MapMemoryResource.foldl_do_deallocate (sz al : Nat) (addrs : List Nat)
    (s : MapMemoryResource) :
    addrs.foldl (fun m p => m.do_deallocate p sz al) s =
      { s with free_blocks_ := addrs.foldl (fun m p => m.push_back_at sz p) s.free_blocks_ } := by
  induction addrs generalizing s with
  | nil => rfl
  | cons p rest ih =>
    simp only [List.foldl_cons]
    rw [ih]
    rfl

theorem FreeMap.foldl_push_back_at (sz : Nat) (addrs : List Nat) (m : FreeMap)
    (hs : KeysSorted m) :
    KeysSorted (addrs.foldl (fun m p => m.push_back_at sz p) m) ∧
      ((addrs.foldl (fun m p => m.push_back_at sz p) m).find sz).getD [] =
        (m.find sz).getD [] ++ addrs ∧
      ∀ key, key ≠ sz →
        (addrs.foldl (fun m p => m.push_back_at sz p) m).find key = m.find key := by
  induction addrs generalizing m with
  | nil =>
    exact ⟨hs, by simp, fun _ _ => rfl⟩
  | cons p rest ih =>
    simp only [List.foldl_cons]
    obtain ⟨h1, h2, h3⟩ := ih (m.push_back_at sz p) (FreeMap.keysSorted_push_back_at m hs sz p)
    refine ⟨h1, ?_, ?_⟩
    · rw [h2, FreeMap.find_push_back_at m hs]
      simp
    · intro key hkey
      rw [h3 key hkey, FreeMap.find_push_back_at m hs]
      simp [hkey]

/-- The loop of `clear` after `k` iterations: the first `k` nodes are gone and
their addresses have been released to the resource of the list, head first. -/
theorem pmr_slist.pop_front_step_iterate {T : Type} (sz al : Nat) (k alloc : Nat)
    (chain : List (Node T)) (σ : Store) :
    (pmr_slist.pop_front_step sz al)^[k] ({ alloc_ := alloc, head_ := chain }, σ) =
      ({ alloc_ := alloc, head_ := chain.drop k },
        Function.update σ alloc
          (((chain.take k).map Node.addr).foldl (fun m p => m.do_deallocate p sz al) (σ alloc))) := by
  induction k generalizing chain σ with
  | zero => simp
  | succ k ih =>
    rw [Function.iterate_succ_apply]
    cases chain with
    | nil =>
      have h0 : pmr_slist.pop_front_step sz al (({ alloc_ := alloc, head_ := [] } : pmr_slist T), σ)
          = ({ alloc_ := alloc, head_ := [] }, σ) := rfl
      rw [h0, ih]
      simp
    | cons n rest =>
      have h0 : pmr_slist.pop_front_step sz al
          (({ alloc_ := alloc, head_ := n :: rest } : pmr_slist T), σ) =
          ({ alloc_ := alloc, head_ := rest },
            Function.update σ alloc ((σ alloc).do_deallocate n.addr sz al)) := rfl
      rw [h0, ih]
      simp

/-- The member `clear` runs the loop body once per node. -/
theorem pmr_slist.clear_eq_iterate {T : Type} (sz al : Nat) (l : pmr_slist T) (σ : Store) :
    pmr_slist.clear sz al l σ = (pmr_slist.pop_front_step sz al)^[l.head_.length] (l, σ) := by
  obtain ⟨alloc, chain⟩ := l
  induction chain generalizing σ with
  | nil =>
    rw [pmr_slist.clear]
    rfl
  | cons n rest ih =>
    rw [pmr_slist.clear]
    simp only [List.length_cons, Function.iterate_succ_apply]
    exact ih _

/-! ## Further claims on the list -/

/-- C11. For every list of `n` elements (the map of its resource ordered, as a
`std::map` is) `clear()` returns, having run `pop_front` exactly `n` times: the
list is not empty after fewer iterations and is empty after `n`, so that
`empty()` holds and `begin() == end()`. The `n` node addresses have been
appended, head node first, to the size class of the node size in the registry of
the list's resource; the other size classes, the bump offset and every other
resource are unchanged. -/
theorem C11_clear_empties_the_list {T : Type} (node_size node_align : Nat) (l : pmr_slist T)
    (σ : Store) (hs : KeysSorted (σ l.alloc_).free_blocks_) :
    pmr_slist.clear node_size node_align l σ =
        (pmr_slist.pop_front_step node_size node_align)^[l.head_.length] (l, σ) ∧
      (∀ k, k < l.head_.length →
        ((pmr_slist.pop_front_step node_size node_align)^[k] (l, σ)).1.empty = false) ∧
      (pmr_slist.clear node_size node_align l σ).1.empty = true ∧
      (pmr_slist.clear node_size node_align l σ).1.begin.eq
        (pmr_slist.clear node_size node_align l σ).1.end_ = true ∧
      (((pmr_slist.clear node_size node_align l σ).2 l.alloc_).free_blocks_.find node_size).getD [] =
        ((σ l.alloc_).free_blocks_.find node_size).getD [] ++ l.head_.map Node.addr ∧
      (∀ key, key ≠ node_size →
        ((pmr_slist.clear node_size node_align l σ).2 l.alloc_).free_blocks_.find key =
          (σ l.alloc_).free_blocks_.find key) ∧
      ((pmr_slist.clear node_size node_align l σ).2 l.alloc_).offset_ = (σ l.alloc_).offset_ ∧
      ∀ a, a ≠ l.alloc_ → (pmr_slist.clear node_size node_align l σ).2 a = σ a := by
  have hc := pmr_slist.clear_eq_iterate node_size node_align l σ
  obtain ⟨alloc, chain⟩ := l
  have hit := fun k => pmr_slist.pop_front_step_iterate node_size node_align k alloc chain σ
  have hfold := FreeMap.foldl_push_back_at node_size (chain.map Node.addr) (σ alloc).free_blocks_ hs
  refine ⟨hc, ?_, ?_⟩
  · intro k hk
    rw [hit k]
    simp only [pmr_slist.empty, List.isEmpty_eq_false]
    intro hd
    have := List.drop_eq_nil_iff.mp hd
    simp only at hk
    omega
  · rw [hc, hit]
    simp only [List.drop_length, List.take_length, Function.update_same,
      MapMemoryResource.foldl_do_deallocate]
    refine ⟨?_, ?_, hfold.2.1, hfold.2.2, ?_, ?_⟩
    · rfl
    · simp [pmr_slist.begin, pmr_slist.end_, pmr_slist.iterator.eq]
    · trivial
    · intro a ha
      exact Function.update_noteq ha _ _

/-- C11 at a concrete list: two nodes, at 4112 and 4096, on a resource whose
registry is empty. -/
theorem C11_clear_empties_the_list_witness :
    (pmr_slist.clear 16 8 (⟨0, [⟨4112, 20⟩, ⟨4096, 10⟩]⟩ : pmr_slist Nat)
        (fun _ => ⟨4096, 1024, 32, []⟩)).1.empty = true ∧
      (((pmr_slist.clear 16 8 (⟨0, [⟨4112, 20⟩, ⟨4096, 10⟩]⟩ : pmr_slist Nat)
        (fun _ => ⟨4096, 1024, 32, []⟩)).2 0).free_blocks_.find 16).getD [] = [4112, 4096] :=
  have h := C11_clear_empties_the_list 16 8 (⟨0, [⟨4112, 20⟩, ⟨4096, 10⟩]⟩ : pmr_slist Nat)
    (fun _ => ⟨4096, 1024, 32, []⟩) (by decide)
  ⟨h.2.2.1, h.2.2.2.2.1⟩

/-- C12. For every list and every state of its resource, if the `allocate` of the
resource throws `bad_alloc` during `push_front(v)`, then `push_front` ends with
that same exception, and the list, offset and registry of the resource included
in the resources, are exactly as before the call. -/
theorem C12_push_front_failure_is_atomic {T : Type} (node_size node_align : Nat)
    (l : pmr_slist T) (σ : Store) (v : T)
    (h : ((σ l.alloc_).do_allocate node_size node_align).1 = .error .bad_alloc) :
    pmr_slist.push_front node_size node_align l σ v = (.error .bad_alloc, l, σ) := by
  have hs := MapMemoryResource.do_allocate_error (σ l.alloc_) node_size node_align _ h
  unfold pmr_slist.push_front
  cases ha : (σ l.alloc_).do_allocate node_size node_align with
  | mk r mr =>
    rw [ha] at h hs
    simp only at h hs
    subst h
    subst hs
    simp

/-- C12 at a concrete list: one node of 16 bytes on a resource of capacity 20 that
has carved 16. -/
theorem C12_push_front_failure_is_atomic_witness :
    (pmr_slist.push_front 16 8 (⟨0, [⟨4096, 10⟩]⟩ : pmr_slist Nat)
        (fun _ => ⟨4096, 20, 16, []⟩) 20).1 = .error .bad_alloc ∧
      (pmr_slist.push_front 16 8 (⟨0, [⟨4096, 10⟩]⟩ : pmr_slist Nat)
        (fun _ => ⟨4096, 20, 16, []⟩) 20).2.1.values = [10] :=
  have h := C12_push_front_failure_is_atomic 16 8 (⟨0, [⟨4096, 10⟩]⟩ : pmr_slist Nat)
    (fun _ => ⟨4096, 20, 16, []⟩) 20 (by decide)
  ⟨by rw [h], by rw [h, pmr_slist.values_eq]; rfl⟩

/-- C14. For every source list, with contents `L` and bound to a resource `F`, the
move constructor yields a list with exactly the nodes of the source, hence the
contents `L` in the same order, bound to `F`, and leaves the source empty and
bound to `F`. The constructor is no function of the resources: it calls neither
`allocate` nor `deallocate`. -/
theorem C14_move_ctor_transfers_the_chain {T : Type} (other : pmr_slist T) :
    (pmr_slist.move_ctor other).1.values = other.values ∧
      (pmr_slist.move_ctor other).1.head_ = other.head_ ∧
      (pmr_slist.move_ctor other).1.alloc_ = other.alloc_ ∧
      (pmr_slist.move_ctor other).2.empty = true ∧
      (pmr_slist.move_ctor other).2.values = [] ∧
      (pmr_slist.move_ctor other).2.alloc_ = other.alloc_ := by
  refine ⟨?_, rfl, rfl, rfl, ?_, rfl⟩
  · rw [pmr_slist.values_eq, pmr_slist.values_eq]
    rfl
  · rw [pmr_slist.values_eq]
    rfl

/-! ## The bump offset -/

/-- A request the registry serves finds a non-empty vector where `lower_bound`
stops. -/
theorem MapMemoryResource.entry_of_recycles (s : MapMemoryResource) (bytes : Nat)
    (h : s.recycles bytes = true) :
    ∃ k v, v ≠ [] ∧ s.free_blocks_[s.free_blocks_.lower_bound bytes]? = some (k, v) := by
  unfold MapMemoryResource.recycles at h
  cases hg : s.free_blocks_[s.free_blocks_.lower_bound bytes]? with
  | none => simp [hg] at h
  | some d =>
    obtain ⟨k, v⟩ := d
    refine ⟨k, v, ?_, rfl⟩
    intro hv
    simp [hg, hv] at h

/-- The bump path either raises and changes nothing, or returns an address and
stores an offset that does not exceed the capacity. -/
theorem MapMemoryResource.allocate_from_buffer_cases (s : MapMemoryResource)
    (bytes alignment : Nat) :
    (∃ e, s.allocate_from_buffer bytes alignment = (.error e, s)) ∨
      ∃ p o, o ≤ s.size_ ∧
        s.allocate_from_buffer bytes alignment = (.ok p, { s with offset_ := o }) := by
  unfold MapMemoryResource.allocate_from_buffer
  cases hg : MapMemoryResource.align_up ((s.buffer_ + s.offset_) % SIZE_MOD) alignment with
  | error x => exact Or.inl ⟨x, by simp only [hg]⟩
  | ok aligned =>
    simp only [hg]
    by_cases hgt : ((aligned + SIZE_MOD - s.buffer_) % SIZE_MOD + bytes) % SIZE_MOD > s.size_
    · exact Or.inl ⟨_, by rw [if_pos hgt]⟩
    · exact Or.inr ⟨aligned, ((aligned + SIZE_MOD - s.buffer_) % SIZE_MOD + bytes) % SIZE_MOD,
        Nat.le_of_not_lt hgt, by rw [if_neg hgt]⟩

/-- A call of `do_allocate` keeps the buffer and the capacity, and keeps the
offset within the capacity. -/
theorem MapMemoryResource.do_allocate_frame (s : MapMemoryResource) (bytes alignment : Nat) :
    (s.do_allocate bytes alignment).2.buffer_ = s.buffer_ ∧
      (s.do_allocate bytes alignment).2.size_ = s.size_ ∧
      (s.offset_ ≤ s.size_ → (s.do_allocate bytes alignment).2.offset_ ≤ s.size_) := by
  cases hr : s.recycles bytes with
  | true =>
    obtain ⟨k, v, hne, hg⟩ := MapMemoryResource.entry_of_recycles s bytes hr
    rw [MapMemoryResource.do_allocate_of_entry s bytes alignment k v hne hg]
    exact ⟨rfl, rfl, fun h => h⟩
  | false =>
    rw [MapMemoryResource.do_allocate_of_not_recycles s bytes alignment hr]
    rcases MapMemoryResource.allocate_from_buffer_cases s bytes alignment with ⟨e, he⟩ | ⟨p, o, ho, he⟩
    · rw [he]
      exact ⟨rfl, rfl, fun h => h⟩
    · rw [he]
      exact ⟨rfl, rfl, fun _ => ho⟩

/-- A request the registry serves leaves the offset as it is. -/
theorem MapMemoryResource.do_allocate_offset_of_recycles (s : MapMemoryResource)
    (bytes alignment : Nat) (h : s.recycles bytes = true) :
    (s.do_allocate bytes alignment).2.offset_ = s.offset_ := by
  obtain ⟨k, v, hne, hg⟩ := MapMemoryResource.entry_of_recycles s bytes h
  rw [MapMemoryResource.do_allocate_of_entry s bytes alignment k v hne hg]

/-- The bump path when the sums do not overflow: with `r` the aligned address,
which is not below `buffer_ + offset_`, the call raises `bad_alloc` without a
change when `r - buffer_ + bytes` exceeds the capacity, and otherwise returns `r`
and stores that sum as the offset. -/
theorem MapMemoryResource.allocate_from_buffer_of_no_overflow (s : MapMemoryResource)
    (bytes alignment : Nat) (ha : 0 < alignment) (h : s.no_overflow bytes alignment = true) :
    ∃ r, s.buffer_ + s.offset_ ≤ r ∧ r % alignment = 0 ∧
      s.allocate_from_buffer bytes alignment =
        if r - s.buffer_ + bytes > s.size_ then (.error .bad_alloc, s)
        else (.ok r, { s with offset_ := r - s.buffer_ + bytes }) := by
  unfold MapMemoryResource.no_overflow at h
  simp only [decide_eq_true_eq] at h
  obtain ⟨h1, h2⟩ := h
  have hmodlt := Nat.mod_lt (s.buffer_ + s.offset_) ha
  by_cases hm : (s.buffer_ + s.offset_) % alignment = 0
  · simp only [hm, if_true] at h1 h2
    refine ⟨s.buffer_ + s.offset_, le_refl _, hm, ?_⟩
    unfold MapMemoryResource.allocate_from_buffer
    have hsub : (s.buffer_ + s.offset_ + SIZE_MOD - s.buffer_) % SIZE_MOD =
        s.buffer_ + s.offset_ - s.buffer_ := by
      have : s.buffer_ + s.offset_ + SIZE_MOD - s.buffer_ =
          (s.buffer_ + s.offset_ - s.buffer_) + SIZE_MOD := by omega
      rw [this, Nat.add_mod_right]
      exact Nat.mod_eq_of_lt (by omega)
    simp only [Nat.mod_eq_of_lt h1, MapMemoryResource.align_up_eq _ _ ha, hm, if_true, hsub,
      Nat.mod_eq_of_lt h2]
  · simp only [hm, if_false] at h1 h2
    refine ⟨s.buffer_ + s.offset_ + (alignment - (s.buffer_ + s.offset_) % alignment),
      by omega, ?_, ?_⟩
    · rw [MapMemoryResource.next_multiple _ _ ha]
      exact Nat.mul_mod_right _ _
    · unfold MapMemoryResource.allocate_from_buffer
      have h0 : s.buffer_ + s.offset_ < SIZE_MOD := by omega
      have hsub : (s.buffer_ + s.offset_ + (alignment - (s.buffer_ + s.offset_) % alignment) +
          SIZE_MOD - s.buffer_) % SIZE_MOD =
          s.buffer_ + s.offset_ + (alignment - (s.buffer_ + s.offset_) % alignment) - s.buffer_ := by
        have : s.buffer_ + s.offset_ + (alignment - (s.buffer_ + s.offset_) % alignment) +
            SIZE_MOD - s.buffer_ =
            (s.buffer_ + s.offset_ + (alignment - (s.buffer_ + s.offset_) % alignment) -
              s.buffer_) + SIZE_MOD := by omega
        rw [this, Nat.add_mod_right]
        exact Nat.mod_eq_of_lt (by omega)
      simp only [Nat.mod_eq_of_lt h0, MapMemoryResource.align_up_eq _ _ ha, hm, if_false,
        Nat.mod_eq_of_lt h1, hsub, Nat.mod_eq_of_lt h2]

/-- Where the sums do not overflow the offset does not decrease. -/
theorem MapMemoryResource.offset_le_of_no_overflow (s : MapMemoryResource)
    (bytes alignment : Nat) (h : s.no_overflow bytes alignment = true) :
    s.offset_ ≤ (s.do_allocate bytes alignment).2.offset_ := by
  cases hr : s.recycles bytes with
  | true => rw [MapMemoryResource.do_allocate_offset_of_recycles s bytes alignment hr]
  | false =>
    rw [MapMemoryResource.do_allocate_of_not_recycles s bytes alignment hr]
    rcases Nat.eq_zero_or_pos alignment with ha | ha
    · subst ha
      simp [MapMemoryResource.allocate_from_buffer, MapMemoryResource.align_up]
    · obtain ⟨r, hr1, _, hr3⟩ :=
        MapMemoryResource.allocate_from_buffer_of_no_overflow s bytes alignment ha h
      rw [hr3]
      split
      · exact le_refl _
      · simp only
        omega

theorem MapMemoryResource.run_frame (s : MapMemoryResource) (calls : List Call)
    (h : s.offset_ ≤ s.size_) :
    (s.run calls).offset_ ≤ (s.run calls).size_ ∧ (s.run calls).size_ = s.size_ ∧
      (s.run calls).buffer_ = s.buffer_ := by
  induction calls generalizing s with
  | nil => exact ⟨h, rfl, rfl⟩
  | cons c calls ih =>
    cases c with
    | allocate bytes alignment =>
      obtain ⟨h1, h2, h3⟩ := MapMemoryResource.do_allocate_frame s bytes alignment
      obtain ⟨i1, i2, i3⟩ := ih (s.do_allocate bytes alignment).2 (by rw [h2]; exact h3 h)
      exact ⟨i1, by rw [← h2]; exact i2, by rw [← h1]; exact i3⟩
    | deallocate ptr bytes alignment =>
      exact ih (s.do_deallocate ptr bytes alignment) h

theorem pmr_slist.clear_nil {T : Type} (sz al alloc : Nat) (σ : Store) :
    pmr_slist.clear sz al ({ alloc_ := alloc, head_ := [] } : pmr_slist T) σ =
      ({ alloc_ := alloc, head_ := [] }, σ) := by
  rw [pmr_slist.clear]

/-! ## Further claims -/

/-- C15, the code at a sequence of list operations that breaks the claim. Two
resources are constructed, at the addresses 1 and 2; a list bound to the
resource 2 gets one element, whose node the resource 2 carves at 8192; the list
is move-assigned to an empty list bound to the resource 1, which takes the node
and stays bound to the resource 1; `pop_front()` on it then passes 8192 to
`deallocate` of the resource 1, whose registry now holds an address that the
resource 1, its offset still 0, has never handed out. -/
theorem C15_move_assign_releases_to_another_resource :
    ∃ (b1 : pmr_slist Nat) (σ1 : Store) (a2 b2 : pmr_slist Nat),
      pmr_slist.push_front 16 8 (pmr_slist.ctor 2)
          (fun a => if a = 1 then MapMemoryResource.ctor 4096 1024
            else MapMemoryResource.ctor 8192 1024) 10 = (.ok (), b1, σ1) ∧
        b1.head_ = [⟨8192, 10⟩] ∧ b1.alloc_ = 2 ∧
        σ1 1 = MapMemoryResource.ctor 4096 1024 ∧ (σ1 2).offset_ = 16 ∧
        pmr_slist.move_assign 16 8 100 200 (pmr_slist.ctor 1) b1 σ1 = (a2, b2, σ1) ∧
        a2.head_ = [⟨8192, 10⟩] ∧ a2.alloc_ = 1 ∧ b2.head_ = [] ∧
        ((pmr_slist.pop_front 16 8 a2 σ1).2 1).free_blocks_ = [(16, [8192])] ∧
        ((pmr_slist.pop_front 16 8 a2 σ1).2 1).offset_ = 0 ∧
        ((pmr_slist.pop_front 16 8 a2 σ1).2 2).free_blocks_ = [] := by
  refine ⟨⟨2, [⟨8192, 10⟩]⟩, _, ⟨1, [⟨8192, 10⟩]⟩, ⟨2, []⟩, rfl, rfl, rfl, rfl, rfl, ?_, rfl,
    rfl, rfl, rfl, rfl, rfl⟩
  simp [pmr_slist.move_assign, pmr_slist.ctor, pmr_slist.clear_nil]

/-- C16. For every resource `m` the call `m.is_equal(m)` is true, and for two
resources `m1` and `m2` the call `m1.is_equal(m2)` is true only if they are one
object; in particular it is false for two distinct resources that are in the same
state, such as two constructed with the same capacity. -/
theorem C16_is_equal_is_identity (m m1 m2 : Nat) (σ : Store) :
    MapMemoryResource.do_is_equal m m = true ∧
      (MapMemoryResource.do_is_equal m1 m2 = true ↔ m1 = m2) ∧
      (m1 ≠ m2 → σ m1 = σ m2 → MapMemoryResource.do_is_equal m1 m2 = false) := by
  refine ⟨by simp [MapMemoryResource.do_is_equal], by simp [MapMemoryResource.do_is_equal], ?_⟩
  intro h _
  simpa [MapMemoryResource.do_is_equal] using h

/-- C18. In every state reached from the construction of a resource by a sequence
of `allocate` calls, throwing or not, and `deallocate` calls with arbitrary
arguments, the bump offset does not exceed the capacity (and, as a `size_t`, is
not negative), and the capacity is the one given at construction. -/
theorem C18_offset_within_capacity (buffer total_size : Nat) (calls : List Call) :
    0 ≤ ((MapMemoryResource.ctor buffer total_size).run calls).offset_ ∧
      ((MapMemoryResource.ctor buffer total_size).run calls).offset_ ≤ total_size ∧
      ((MapMemoryResource.ctor buffer total_size).run calls).size_ = total_size := by
  have h := MapMemoryResource.run_frame (MapMemoryResource.ctor buffer total_size) calls
    (Nat.zero_le _)
  refine ⟨Nat.zero_le _, ?_, h.2.1⟩
  have h1 := h.1
  rw [h.2.1] at h1
  exact h1

/-- C19, the code at an input where the sum wraps around. A resource of capacity
1024 at address 4096 has served `allocate(100, 1)`, so its offset is 100 and its
registry is empty. The call `allocate(2 ^ 64 - 50, 1)` returns 4196 and sets the
offset to `(100 + 2 ^ 64 - 50) % 2 ^ 64 = 50`, which is below the offset 100
before the call. -/
theorem C19_offset_decreases :
    (MapMemoryResource.ctor 4096 1024).run [.allocate 100 1] = ⟨4096, 1024, 100, []⟩ ∧
      2 ^ 64 - 50 < SIZE_MOD ∧
      MapMemoryResource.do_allocate ⟨4096, 1024, 100, []⟩ (2 ^ 64 - 50) 1 =
        (.ok 4196, ⟨4096, 1024, 50, []⟩) ∧
      (MapMemoryResource.do_allocate ⟨4096, 1024, 100, []⟩ (2 ^ 64 - 50) 1).2.offset_ <
        (⟨4096, 1024, 100, []⟩ : MapMemoryResource).offset_ := by
  decide

/-! ## Filling, clearing and refilling a list -/

/-- The bump path does not look at the registry. -/
theorem MapMemoryResource.allocate_from_buffer_registry (s : MapMemoryResource) (m : FreeMap)
    (bytes alignment : Nat) :
    ({ s with free_blocks_ := m } : MapMemoryResource).allocate_from_buffer bytes alignment =
      ((s.allocate_from_buffer bytes alignment).1,
        { (s.allocate_from_buffer bytes alignment).2 with free_blocks_ := m }) := by
  unfold MapMemoryResource.allocate_from_buffer
  cases hg : MapMemoryResource.align_up ((s.buffer_ + s.offset_) % SIZE_MOD) alignment with
  | error x => simp only [hg]
  | ok aligned =>
    simp only [hg]
    split <;> rfl

/-- The bump path leaves the registry as it is. -/
theorem MapMemoryResource.allocate_from_buffer_free_blocks (s : MapMemoryResource)
    (bytes alignment : Nat) :
    (s.allocate_from_buffer bytes alignment).2.free_blocks_ = s.free_blocks_ := by
  rcases MapMemoryResource.allocate_from_buffer_cases s bytes alignment with ⟨e, he⟩ | ⟨p, o, _, he⟩
  · rw [he]
  · rw [he]

/-- With an empty registry every request takes the bump path. -/
theorem MapMemoryResource.do_allocate_of_empty_registry (s : MapMemoryResource)
    (bytes alignment : Nat) (h : s.free_blocks_ = []) :
    s.do_allocate bytes alignment = s.allocate_from_buffer bytes alignment := by
  apply MapMemoryResource.do_allocate_of_not_recycles
  simp [MapMemoryResource.recycles, h, FreeMap.lower_bound]

/-- With a registry whose only class is the one asked for and is empty, every
request of that size takes the bump path. -/
theorem MapMemoryResource.do_allocate_of_empty_class (s : MapMemoryResource)
    (bytes alignment : Nat) (h : s.free_blocks_ = [(bytes, [])]) :
    s.do_allocate bytes alignment = s.allocate_from_buffer bytes alignment := by
  apply MapMemoryResource.do_allocate_of_not_recycles
  simp [MapMemoryResource.recycles, h, FreeMap.lower_bound]

/-- A run of successful `push_front` calls on a resource with an empty registry
leaves the registry empty. -/
theorem pmr_slist.push_front_each_empty_registry {T : Type} (sz al : Nat) (xs : List T)
    (l l1 : pmr_slist T) (σ σ1 : Store)
    (h : pmr_slist.push_front_each sz al l σ xs = (.ok (), l1, σ1))
    (hreg : (σ l.alloc_).free_blocks_ = []) :
    l1.alloc_ = l.alloc_ ∧ (σ1 l.alloc_).free_blocks_ = [] ∧
      l1.head_.length = xs.length + l.head_.length := by
  induction xs generalizing l σ with
  | nil =>
    simp only [pmr_slist.push_front_each, Prod.mk.injEq] at h
    obtain ⟨_, h2, h3⟩ := h
    subst h2
    subst h3
    exact ⟨rfl, hreg, by simp⟩
  | cons x xs ih =>
    obtain ⟨l2, σ2, hp, hrest⟩ := pmr_slist.push_front_each_cons sz al x xs l l1 σ σ1 h
    obtain ⟨n, _, _, _, hl2, hσ2⟩ := pmr_slist.push_front_ok sz al l l2 σ σ2 x hp
    have hfb : ((σ l.alloc_).do_allocate sz al).2.free_blocks_ = [] := by
      rw [MapMemoryResource.do_allocate_of_empty_registry _ _ _ hreg,
        MapMemoryResource.allocate_from_buffer_free_blocks, hreg]
    subst hl2
    subst hσ2
    obtain ⟨h1, h2, h3⟩ := ih _ _ hrest (by simpa using hfb)
    simp only at h1 h2 h3
    refine ⟨h1, h2, ?_⟩
    simp only [h3, List.length_cons]
    omega

/-- After a run of `push_front` calls that ends with `ok ()` the nodes of the list
have distinct addresses, none of them `nullptr`, if they had before. -/
theorem pmr_slist.push_front_each_nodup {T : Type} (sz al : Nat) (xs : List T)
    (l l1 : pmr_slist T) (σ σ1 : Store)
    (h : pmr_slist.push_front_each sz al l σ xs = (.ok (), l1, σ1))
    (hnd : (l.head_.map Node.addr).Nodup) (h0 : 0 ∉ l.head_.map Node.addr) :
    (l1.head_.map Node.addr).Nodup ∧ 0 ∉ l1.head_.map Node.addr := by
  induction xs generalizing l σ with
  | nil =>
    simp only [pmr_slist.push_front_each, Prod.mk.injEq] at h
    obtain ⟨_, h2, _⟩ := h
    subst h2
    exact ⟨hnd, h0⟩
  | cons x xs ih =>
    obtain ⟨l2, σ2, hp, hrest⟩ := pmr_slist.push_front_each_cons sz al x xs l l1 σ σ1 h
    obtain ⟨n, _, hn0, hnf, hl2, _⟩ := pmr_slist.push_front_ok sz al l l2 σ σ2 x hp
    subst hl2
    refine ih _ _ hrest ?_ ?_
    · simp only [List.map_cons]
      exact List.nodup_cons.mpr ⟨hnf, hnd⟩
    · simp only [List.map_cons, List.mem_cons, not_or]
      exact ⟨fun h => hn0 h.symm, h0⟩

theorem FreeMap.foldl_push_back_at_single (sz : Nat) (addrs v : List Nat) :
    addrs.foldl (fun (m : FreeMap) p => m.push_back_at sz p) [(sz, v)] = [(sz, v ++ addrs)] := by
  induction addrs generalizing v with
  | nil => simp
  | cons p rest ih =>
    simp only [List.foldl_cons, FreeMap.push_back_at, lt_irrefl, if_false, if_true]
    rw [ih]
    simp

theorem FreeMap.foldl_push_back_at_nil (sz p : Nat) (rest : List Nat) :
    (p :: rest).foldl (fun (m : FreeMap) q => m.push_back_at sz q) [] = [(sz, p :: rest)] := by
  simp only [List.foldl_cons, FreeMap.push_back_at]
  rw [FreeMap.foldl_push_back_at_single]
  simp

/-- A request of the size of the only class of the registry, that class not
empty, is served with the address inserted last. -/
theorem MapMemoryResource.do_allocate_single_class (s : MapMemoryResource) (sz al q : Nat)
    (init : List Nat) (h : s.free_blocks_ = [(sz, init ++ [q])]) :
    s.do_allocate sz al = (.ok q, { s with free_blocks_ := [(sz, init)] }) := by
  have hne : init ++ [q] ≠ [] := by simp
  have hg : s.free_blocks_[s.free_blocks_.lower_bound sz]? = some (sz, init ++ [q]) := by
    simp [h, FreeMap.lower_bound]
  rw [MapMemoryResource.do_allocate_of_entry s sz al sz (init ++ [q]) hne hg]
  simp [h, FreeMap.lower_bound]

/-- Pushing onto a list whose resource has the one size class of the nodes in its
registry, with at least as many addresses as there are values, the addresses
distinct, none of them `nullptr` or a node of the list: every call is served
from that class, last address first. -/
theorem pmr_slist.push_front_each_recycled {T : Type} (sz al : Nat) (ys : List T)
    (l : pmr_slist T) (σ : Store) (v : List Nat)
    (hreg : (σ l.alloc_).free_blocks_ = [(sz, v)]) (hlen : ys.length ≤ v.length)
    (hnd : v.Nodup) (h0 : 0 ∉ v) (hdis : ∀ a ∈ v, a ∉ l.head_.map Node.addr) :
    ∃ l3 σ3, pmr_slist.push_front_each sz al l σ ys = (.ok (), l3, σ3) ∧
      l3.alloc_ = l.alloc_ ∧
      σ3 l.alloc_ =
        { σ l.alloc_ with free_blocks_ := [(sz, v.take (v.length - ys.length))] } ∧
      l3.head_.map Node.addr = v.drop (v.length - ys.length) ++ l.head_.map Node.addr ∧
      l3.head_.map Node.value = ys.reverse ++ l.head_.map Node.value := by
  induction ys generalizing l σ v with
  | nil =>
    refine ⟨l, σ, rfl, rfl, ?_, by simp, by simp⟩
    simp only [List.length_nil, Nat.sub_zero, List.take_length]
    rw [← hreg]
  | cons y ys ih =>
    rcases List.eq_nil_or_concat v with hv | ⟨init, q, hv⟩
    · subst hv
      simp at hlen
    · rw [List.concat_eq_append] at hv
      subst hv
      have hal := MapMemoryResource.do_allocate_single_class (σ l.alloc_) sz al q init hreg
      have hlen2 : ys.length ≤ init.length := by
        simp only [List.length_cons, List.length_append, List.length_nil] at hlen
        omega
      have hq0 : q ≠ 0 := fun h => h0 (by simp [h])
      have hqf : q ∉ l.head_.map Node.addr := hdis q (by simp)
      have hnd2 := List.nodup_append.mp hnd
      obtain ⟨l3, σ3, h1, h2, h3, h4, h5⟩ :=
        ih { l with head_ := { addr := q, value := y } :: l.head_ }
          (Function.update σ l.alloc_ { σ l.alloc_ with free_blocks_ := [(sz, init)] }) init
          (by simp) hlen2 hnd2.1 (fun h => h0 (List.mem_append_left _ h))
          (by
            intro a ha
            simp only [List.map_cons, List.mem_cons, not_or]
            refine ⟨?_, hdis a (List.mem_append_left _ ha)⟩
            intro haq
            exact hnd2.2.2 ha (by simp [haq]))
      refine ⟨l3, σ3, ?_, h2, ?_, ?_, ?_⟩
      · unfold pmr_slist.push_front_each
        rw [pmr_slist.push_front_of_fresh sz al l σ y q (by rw [hal]) hq0 hqf, hal]
        exact h1
      · have hk : (init ++ [q]).length - (y :: ys).length = init.length - ys.length := by
          simp only [List.length_cons, List.length_append, List.length_nil]
          omega
        rw [hk, List.take_append_of_le_length (by omega)]
        simp only [Function.update_same] at h3
        exact h3
      · have hk : (init ++ [q]).length - (y :: ys).length = init.length - ys.length := by
          simp only [List.length_cons, List.length_append, List.length_nil]
          omega
        rw [hk, List.drop_append_of_le_length (by omega), h4]
        simp
      · rw [h5]
        simp

theorem pmr_slist.push_front_error_iff {T : Type} (sz al : Nat) (l : pmr_slist T) (σ : Store)
    (v : T) (e : Exn) :
    (pmr_slist.push_front sz al l σ v).1 = .error e ↔
      ((σ l.alloc_).do_allocate sz al).1 = .error e := by
  rw [pmr_slist.push_front_eq]
  cases h : ((σ l.alloc_).do_allocate sz al).1 with
  | error x => simp
  | ok n =>
    simp only
    by_cases h0 : n = 0
    · simp [h0]
    · by_cases hl : n ∈ l.head_.map Node.addr
      · simp [h0, hl]
      · simp [h0, hl]

/-- The member `clear` in closed form. -/
theorem pmr_slist.clear_eq {T : Type} (sz al : Nat) (l : pmr_slist T) (σ : Store) :
    pmr_slist.clear sz al l σ =
      ({ alloc_ := l.alloc_, head_ := [] },
        Function.update σ l.alloc_
          { σ l.alloc_ with
            free_blocks_ := (l.head_.map Node.addr).foldl (fun m p => m.push_back_at sz p)
              (σ l.alloc_).free_blocks_ }) := by
  rw [pmr_slist.clear_eq_iterate]
  obtain ⟨alloc, chain⟩ := l
  rw [pmr_slist.pop_front_step_iterate]
  simp only [List.drop_length, List.take_length, MapMemoryResource.foldl_do_deallocate]

/-- C13. A list is constructed on a fresh resource of any capacity and is the
only user of it, with nodes of one size. If `n` calls of `push_front` succeed
and the next one throws `bad_alloc`, then after `clear()` a further `n` calls of
`push_front` succeed: each of them finds the registry ready to serve it, the bump
offset is the one before `clear()` throughout, and the nodes get the addresses
they had in the first round; and the call after these `n` throws `bad_alloc`. -/
theorem C13_fill_clear_refill {T : Type} (node_size node_align mr buffer total_size : Nat)
    (σ : Store) (xs ys : List T) (x : T) (l1 : pmr_slist T) (σ1 : Store)
    (hfresh : σ mr = MapMemoryResource.ctor buffer total_size)
    (hfill : pmr_slist.push_front_each node_size node_align (pmr_slist.ctor mr) σ xs =
      (.ok (), l1, σ1))
    (hfail : (pmr_slist.push_front node_size node_align l1 σ1 x).1 = .error .bad_alloc)
    (hlen : ys.length ≤ xs.length) :
    ∃ l3 σ3,
      pmr_slist.push_front_each node_size node_align
          (pmr_slist.clear node_size node_align l1 σ1).1
          (pmr_slist.clear node_size node_align l1 σ1).2 ys = (.ok (), l3, σ3) ∧
        l3.values = ys.reverse ∧
        (σ3 mr).offset_ = (σ1 mr).offset_ ∧
        (ys.length < xs.length → (σ3 mr).recycles node_size = true) ∧
        (ys.length = xs.length →
          l3.head_.map Node.addr = l1.head_.map Node.addr ∧
            ∀ y, (pmr_slist.push_front node_size node_align l3 σ3 y).1 = .error .bad_alloc) := by
  obtain ⟨ha, hreg, hlen1⟩ :=
    pmr_slist.push_front_each_empty_registry node_size node_align xs _ l1 σ σ1 hfill
      (by simp [pmr_slist.ctor, hfresh, MapMemoryResource.ctor])
  obtain ⟨hnd1, h01⟩ :=
    pmr_slist.push_front_each_nodup node_size node_align xs _ l1 σ σ1 hfill
      (by simp [pmr_slist.ctor]) (by simp [pmr_slist.ctor])
  simp only [pmr_slist.ctor, List.length_nil, Nat.add_zero] at ha hreg hlen1
  rw [pmr_slist.push_front_error_iff, ha] at hfail
  rw [MapMemoryResource.do_allocate_of_empty_registry _ _ _ hreg] at hfail
  rw [pmr_slist.clear_eq, ha, hreg]
  cases hch : l1.head_.map Node.addr with
  | nil =>
    have hxs : xs.length = 0 := by
      have := congrArg List.length hch
      simp only [List.length_map, List.length_nil] at this
      omega
    have hys : ys = [] := List.length_eq_zero.mp (by omega)
    have hl1 : l1.head_ = [] := by simpa using hch
    subst hys
    refine ⟨_, _, rfl, ?_, ?_, ?_, ?_⟩
    · rw [pmr_slist.values_eq]
      rfl
    · simp
    · intro h
      simp only [List.length_nil] at h
      omega
    · intro _
      refine ⟨by simp, fun y => ?_⟩
      rw [pmr_slist.push_front_error_iff]
      simp only [List.foldl_nil, Function.update_same]
      rw [MapMemoryResource.do_allocate_of_empty_registry _ _ _ rfl]
      have := MapMemoryResource.allocate_from_buffer_registry (σ1 mr) [] node_size node_align
      rw [this, hfail]
  | cons p rest =>
    rw [FreeMap.foldl_push_back_at_nil]
    have hlv : (p :: rest).length = xs.length := by
      rw [← hch, List.length_map, hlen1]
    obtain ⟨l3, σ3, h1, h2, h3, h4, h5⟩ :=
      pmr_slist.push_front_each_recycled node_size node_align ys
        ({ alloc_ := mr, head_ := [] } : pmr_slist T)
        (Function.update σ1 mr { σ1 mr with free_blocks_ := [(node_size, p :: rest)] })
        (p :: rest) (by simp) (by omega) (by rw [← hch]; exact hnd1) (by rw [← hch]; exact h01)
        (by simp)
    simp only [Function.update_same, List.map_nil, List.append_nil] at h2 h3 h4 h5
    refine ⟨l3, σ3, h1, ?_, ?_, ?_, ?_⟩
    · rw [pmr_slist.values_eq, h5]
    · rw [h3]
    · intro hlt
      rw [h3]
      have hpos : 0 < (p :: rest).length - ys.length := by omega
      cases htk : List.take ((p :: rest).length - ys.length) (p :: rest) with
      | nil =>
        have := congrArg List.length htk
        simp only [List.length_take, List.length_nil] at this
        omega
      | cons a t => simp [MapMemoryResource.recycles, FreeMap.lower_bound]
    · intro heq
      have hz : (p :: rest).length - ys.length = 0 := by omega
      rw [hz] at h3 h4
      simp only [List.take_zero, List.drop_zero] at h3 h4
      refine ⟨h4, fun y => ?_⟩
      rw [pmr_slist.push_front_error_iff, h2, h3]
      rw [MapMemoryResource.do_allocate_of_empty_class _ _ _ rfl]
      have := MapMemoryResource.allocate_from_buffer_registry (σ1 mr) [(node_size, [])]
        node_size node_align
      rw [this, hfail]

/-- C13 at a concrete run: nodes of 16 bytes on a resource of capacity 40, which
has room for two of them. -/
theorem C13_fill_clear_refill_witness :
    ∃ l3 σ3,
      pmr_slist.push_front_each 16 8
          (pmr_slist.clear 16 8
            (pmr_slist.push_front_each 16 8 (pmr_slist.ctor 0)
              (fun _ => MapMemoryResource.ctor 4096 40) [1, 2]).2.1
            (pmr_slist.push_front_each 16 8 (pmr_slist.ctor 0)
              (fun _ => MapMemoryResource.ctor 4096 40) [1, 2]).2.2).1
          (pmr_slist.clear 16 8
            (pmr_slist.push_front_each 16 8 (pmr_slist.ctor 0)
              (fun _ => MapMemoryResource.ctor 4096 40) [1, 2]).2.1
            (pmr_slist.push_front_each 16 8 (pmr_slist.ctor 0)
              (fun _ => MapMemoryResource.ctor 4096 40) [1, 2]).2.2).2 [3, 4] =
          (.ok (), l3, σ3) ∧
        l3.values = [4, 3] :=
  have h1 : (pmr_slist.push_front_each 16 8 (pmr_slist.ctor 0)
      (fun _ => MapMemoryResource.ctor 4096 40) [1, 2]).1 = .ok () := by decide
  (C13_fill_clear_refill 16 8 0 4096 40 (fun _ => MapMemoryResource.ctor 4096 40) [1, 2] [3, 4] 5
    _ _ rfl (triple_eq_of_fst _ _ h1) (by decide) (by decide)).imp
    fun _ h => h.imp fun _ h => ⟨h.1, h.2.1⟩

/-! ## Live blocks -/

theorem Blocks.disjoint_symm (x y : Nat × Nat) (h : Blocks.disjoint x y) : Blocks.disjoint y x :=
  Or.symm h

theorem Blocks.perm_cons_remove (live : Blocks) (blk : Nat × Nat) (h : blk ∈ live) :
    List.Perm live (blk :: live.remove blk) := by
  induction live with
  | nil => simp at h
  | cons x rest ih =>
    by_cases hx : x = blk
    · subst hx
      simp [Blocks.remove]
    · have hin : blk ∈ rest := by
        rcases List.mem_cons.mp h with h1 | h1
        · exact absurd h1.symm hx
        · exact h1
      simp only [Blocks.remove, hx, if_false]
      exact (List.Perm.cons x (ih hin)).trans (List.Perm.swap blk x _)

/-- Releasing a block adds it to the blocks of the registry. -/
theorem FreeMap.blocks_push_back_at (m : FreeMap) (bytes ptr : Nat) :
    List.Perm (m.push_back_at bytes ptr).blocks ((ptr, bytes) :: m.blocks) := by
  induction m with
  | nil => simp [FreeMap.push_back_at, FreeMap.blocks]
  | cons e rest ih =>
    obtain ⟨k, v⟩ := e
    by_cases h1 : k < bytes
    · simp only [FreeMap.push_back_at, h1, if_true, FreeMap.blocks]
      exact (List.Perm.append_left _ ih).trans List.perm_middle
    · by_cases h2 : k = bytes
      · subst h2
        simp only [FreeMap.push_back_at, lt_irrefl, if_false, if_true, FreeMap.blocks,
          List.map_append, List.map_cons, List.map_nil, List.append_assoc]
        exact List.perm_middle
      · simp only [FreeMap.push_back_at, h1, h2, if_false, FreeMap.blocks, List.map_cons,
          List.map_nil]
        exact List.Perm.refl _

/-- Serving a request from the registry takes the last block of the class
`lower_bound` stops at out of the blocks of the registry. -/
theorem FreeMap.blocks_set_dropLast (m : FreeMap) (i k : Nat) (v : List Nat) (hne : v ≠ [])
    (h : m[i]? = some (k, v)) :
    List.Perm m.blocks ((v.getLast hne, k) :: FreeMap.blocks (m.set i (k, v.dropLast))) := by
  induction m generalizing i with
  | nil => simp at h
  | cons e rest ih =>
    cases i with
    | zero =>
      simp only [List.getElem?_cons_zero, Option.some.injEq] at h
      subst h
      simp only [List.set_cons_zero, FreeMap.blocks]
      have hv : v = v.dropLast ++ [v.getLast hne] := (List.dropLast_append_getLast hne).symm
      conv_lhs => rw [hv]
      simp only [List.map_append, List.map_cons, List.map_nil, List.append_assoc]
      exact List.perm_middle
    | succ j =>
      obtain ⟨k0, v0⟩ := e
      have h2 : rest[j]? = some (k, v) := by simpa using h
      simp only [List.set_cons_succ, FreeMap.blocks]
      exact (List.Perm.append_left _ (ih j h2)).trans List.perm_middle

/-- The key of the entry `lower_bound` stops at is not less than the one asked
for, in any map. -/
theorem FreeMap.lower_bound_key_ge (m : FreeMap) (bytes k : Nat) (v : List Nat)
    (h : m[m.lower_bound bytes]? = some (k, v)) : bytes ≤ k := by
  induction m with
  | nil => simp [FreeMap.lower_bound] at h
  | cons e rest ih =>
    obtain ⟨k0, v0⟩ := e
    by_cases h1 : k0 < bytes
    · exact ih (by simpa [FreeMap.lower_bound, h1] using h)
    · have h2 : (k0, v0) = (k, v) := by simpa [FreeMap.lower_bound, h1] using h
      cases h2
      omega

/-- The invariant `separated` depends on the blocks only up to their order. -/
theorem MapMemoryResource.separated_of_perm (s t : MapMemoryResource) (live held : Blocks)
    (hb : t.buffer_ = s.buffer_) (ho : t.offset_ = s.offset_) (hz : t.size_ = s.size_)
    (hp : List.Perm (held ++ t.free_blocks_.blocks) (live ++ s.free_blocks_.blocks))
    (h : s.separated live) : t.separated held := by
  obtain ⟨h1, h2, h3⟩ := h
  refine ⟨?_, ?_, by rw [ho, hz]; exact h3⟩
  · intro blk hblk
    rw [hb, ho]
    exact h1 blk (hp.mem_iff.mp hblk)
  · exact (hp.pairwise_iff (fun {x y} hxy => Blocks.disjoint_symm x y hxy)).mpr h2

/-- Releasing a block the caller holds keeps the invariant. -/
theorem MapMemoryResource.separated_do_deallocate (s : MapMemoryResource) (live : Blocks)
    (ptr bytes alignment : Nat) (hmem : (ptr, bytes) ∈ live) (h : s.separated live) :
    (s.do_deallocate ptr bytes alignment).separated (live.remove (ptr, bytes)) := by
  refine MapMemoryResource.separated_of_perm s (s.do_deallocate ptr bytes alignment) live
    (live.remove (ptr, bytes)) rfl rfl rfl ?_ h
  have h1 := FreeMap.blocks_push_back_at s.free_blocks_ bytes ptr
  have h2 := Blocks.perm_cons_remove live (ptr, bytes) hmem
  have h3 : List.Perm ((ptr, bytes) :: (live.remove (ptr, bytes) ++ s.free_blocks_.blocks))
      (live ++ s.free_blocks_.blocks) :=
    List.Perm.append_right s.free_blocks_.blocks h2.symm
  exact (List.Perm.append_left _ h1).trans (List.perm_middle.trans h3)

/-- A successful `allocate` of an honest caller keeps the invariant, the block
returned being held from then on; a throwing one changes nothing. -/
theorem MapMemoryResource.separated_do_allocate (s : MapMemoryResource) (live : Blocks)
    (bytes alignment : Nat)
    (hh : (s.recycles bytes || s.no_overflow bytes alignment) = true) (h : s.separated live) :
    (∀ p s1, s.do_allocate bytes alignment = (.ok p, s1) → s1.separated ((p, bytes) :: live)) ∧
      (∀ e s1, s.do_allocate bytes alignment = (.error e, s1) → s1.separated live) := by
  constructor
  · intro p s1 hal
    cases hr : s.recycles bytes with
    | true =>
      obtain ⟨k, v, hne, hg⟩ := MapMemoryResource.entry_of_recycles s bytes hr
      rw [MapMemoryResource.do_allocate_of_entry s bytes alignment k v hne hg] at hal
      simp only [Prod.mk.injEq, Except.ok.injEq] at hal
      obtain ⟨hp, hs1⟩ := hal
      subst hp
      subst hs1
      have hk := FreeMap.lower_bound_key_ge s.free_blocks_ bytes k v hg
      have hperm := FreeMap.blocks_set_dropLast s.free_blocks_ _ k v hne hg
      have hold := MapMemoryResource.separated_of_perm s
        { s with free_blocks_ :=
            s.free_blocks_.set (s.free_blocks_.lower_bound bytes) (k, v.dropLast) }
        live ((v.getLast hne, k) :: live) rfl rfl rfl
        ((List.Perm.append_left live hperm).trans List.perm_middle).symm h
      obtain ⟨h1, h2, h3⟩ := hold
      simp only [List.cons_append] at h1 h2
      refine ⟨?_, ?_, h3⟩
      · intro blk hblk
        simp only [List.cons_append] at hblk
        rcases List.mem_cons.mp hblk with hb | hb
        · subst hb
          have := h1 _ (List.mem_cons_self _ _)
          simp only at this ⊢
          omega
        · exact h1 blk (List.mem_cons_of_mem _ hb)
      · simp only [List.cons_append]
        have h2c := List.pairwise_cons.mp h2
        refine List.pairwise_cons.mpr ⟨?_, h2c.2⟩
        intro y hy
        have := h2c.1 y hy
        unfold Blocks.disjoint at this ⊢
        simp only at this ⊢
        omega
    | false =>
      rw [hr] at hh
      simp only [Bool.false_or] at hh
      rw [MapMemoryResource.do_allocate_of_not_recycles s bytes alignment hr] at hal
      rcases Nat.eq_zero_or_pos alignment with ha | ha
      · subst ha
        simp [MapMemoryResource.allocate_from_buffer, MapMemoryResource.align_up] at hal
      · obtain ⟨r, hr1, _, hr3⟩ :=
          MapMemoryResource.allocate_from_buffer_of_no_overflow s bytes alignment ha hh
        rw [hr3] at hal
        by_cases hgt : r - s.buffer_ + bytes > s.size_
        · rw [if_pos hgt] at hal
          simp at hal
        · rw [if_neg hgt] at hal
          simp only [Prod.mk.injEq, Except.ok.injEq] at hal
          obtain ⟨hp, hs1⟩ := hal
          subst hp
          subst hs1
          obtain ⟨h1, h2, h3⟩ := h
          refine ⟨?_, ?_, by simp only; omega⟩
          · intro blk hblk
            simp only [List.cons_append] at hblk
            rcases List.mem_cons.mp hblk with hb | hb
            · subst hb
              simp only
              omega
            · have := h1 blk hb
              simp only
              omega
          · simp only [List.cons_append]
            refine List.pairwise_cons.mpr ⟨?_, h2⟩
            intro y hy
            have := h1 y hy
            unfold Blocks.disjoint
            simp only
            omega
  · intro e s1 hal
    have h1 : (s.do_allocate bytes alignment).1 = .error e := by rw [hal]
    have h2 := MapMemoryResource.do_allocate_error s bytes alignment e h1
    rw [hal] at h2
    simp only at h2
    rw [h2]
    exact h

/-- The resource of `run_live` is the resource of `run`. -/
theorem MapMemoryResource.run_live_fst (s : MapMemoryResource) (live : Blocks)
    (calls : List Call) : (s.run_live live calls).1 = s.run calls := by
  induction calls generalizing s live with
  | nil => rfl
  | cons c calls ih =>
    cases c with
    | allocate bytes alignment =>
      simp only [MapMemoryResource.run_live, MapMemoryResource.run]
      cases h : s.do_allocate bytes alignment with
      | mk r s1 => cases r <;> exact ih _ _
    | deallocate ptr bytes alignment => exact ih _ _

/-- The invariant `separated` holds along every sequence of calls of an honest
caller. -/
theorem MapMemoryResource.separated_run_live (s : MapMemoryResource) (live : Blocks)
    (calls : List Call) (hh : s.honest live calls = true) (h : s.separated live) :
    (s.run_live live calls).1.separated (s.run_live live calls).2 := by
  induction calls generalizing s live with
  | nil => exact h
  | cons c calls ih =>
    cases c with
    | allocate bytes alignment =>
      simp only [MapMemoryResource.honest, Bool.and_eq_true] at hh
      obtain ⟨hh1, hh2⟩ := hh
      obtain ⟨hok, herr⟩ := MapMemoryResource.separated_do_allocate s live bytes alignment hh1 h
      simp only [MapMemoryResource.run_live]
      cases hal : s.do_allocate bytes alignment with
      | mk r s1 =>
        rw [hal] at hh2
        cases r with
        | ok p => exact ih s1 _ hh2 (hok p s1 hal)
        | error e => exact ih s1 _ hh2 (herr e s1 hal)
    | deallocate ptr bytes alignment =>
      simp only [MapMemoryResource.honest, Bool.and_eq_true, decide_eq_true_eq] at hh
      obtain ⟨hh1, hh2⟩ := hh
      exact ih _ _ hh2 (MapMemoryResource.separated_do_deallocate s live ptr bytes alignment hh1 h)

/-- C20. The caller of a resource is honest: every `deallocate` passes a block
held at that moment, address and size as `allocate` returned and was given them,
each held block once, and the sums of the bump path do not overflow. Then in
every state reached from the construction, every block the caller holds lies
inside the buffer, `buffer ≤ p` and `p + bytes ≤ buffer + capacity`, and no two
blocks held overlap, blocks served from a larger size class by `lower_bound`
included. -/
theorem C20_live_blocks_do_not_overlap (buffer total_size : Nat) (calls : List Call)
    (hh : (MapMemoryResource.ctor buffer total_size).honest [] calls = true) :
    ((MapMemoryResource.ctor buffer total_size).run_live [] calls).1 =
        (MapMemoryResource.ctor buffer total_size).run calls ∧
      (∀ blk ∈ ((MapMemoryResource.ctor buffer total_size).run_live [] calls).2,
        buffer ≤ blk.1 ∧ blk.1 + blk.2 ≤ buffer + total_size) ∧
      ((MapMemoryResource.ctor buffer total_size).run_live [] calls).2.Pairwise
        Blocks.disjoint := by
  have h0 : (MapMemoryResource.ctor buffer total_size).separated [] := by
    refine ⟨?_, ?_, Nat.zero_le _⟩
    · intro blk hblk
      simp [MapMemoryResource.ctor, FreeMap.blocks] at hblk
    · simp [MapMemoryResource.ctor, FreeMap.blocks]
  have hfst := MapMemoryResource.run_live_fst (MapMemoryResource.ctor buffer total_size) [] calls
  obtain ⟨h1, h2, h3⟩ :=
    MapMemoryResource.separated_run_live (MapMemoryResource.ctor buffer total_size) [] calls hh h0
  obtain ⟨_, f2, f3⟩ :=
    MapMemoryResource.run_frame (MapMemoryResource.ctor buffer total_size) calls (Nat.zero_le _)
  rw [hfst] at h1 h3
  rw [f2] at h3
  rw [f3] at h1
  simp only [MapMemoryResource.ctor] at h1 h3
  refine ⟨hfst, ?_, (List.pairwise_append.mp h2).1⟩
  intro blk hblk
  have := h1 blk (List.mem_append_left _ hblk)
  omega

/-- C20 at a concrete sequence of calls: a block of 64 bytes is carved, released
and served again for a request of 16 bytes, and a second block is carved. -/
theorem C20_live_blocks_do_not_overlap_witness :
    ((MapMemoryResource.ctor 4096 256).run_live []
        [.allocate 64 8, .deallocate 4096 64 8, .allocate 16 8, .allocate 32 8]).2 =
        [(4160, 32), (4096, 16)] ∧
      ((MapMemoryResource.ctor 4096 256).run_live []
        [.allocate 64 8, .deallocate 4096 64 8, .allocate 16 8, .allocate 32 8]).2.Pairwise
        Blocks.disjoint :=
  ⟨by decide,
    (C20_live_blocks_do_not_overlap 4096 256
      [.allocate 64 8, .deallocate 4096 64 8, .allocate 16 8, .allocate 32 8] (by decide)).2.2⟩
